import Mathlib

/-!
A shallow embedding of the `sixbit` packed-string codec.

This file embeds the Rust crate `sixbit` (src/lib.rs): a codec packing short
Unicode strings into fixed-width unsigned integers (8/16/32/64/128 bits) with a
small code-page tag followed by 6-bit character codes, plus a special 15-bit
delta encoding for the CJK block U+4E00..U+9FFF.

Machine integers of width `w` are modelled as `Nat` reduced modulo `2 ^ w`.
Shift amounts are masked by the bit width (`k % w`), which is Rust's
release-mode semantics for oversized shifts; a separate checked variant
(`decodeListChecked`) models the debug-mode behaviour, in which an oversized
shift is an arithmetic-overflow panic, and also flags any out-of-bounds table
index.  Character comparisons are by Unicode scalar value (`Char.toNat`),
which is exactly `char`'s `Ord` in Rust.
-/

/-- `PackedValue::NBITS`: the width in bits of the packed integer type. -/
def NBITS (w : Nat) : Nat := w

/-- `PackedValue::NCHARS = NBITS / 6`: the number of 6-bit character slots. -/
def NCHARS (w : Nat) : Nat := NBITS w / 6

/-- `PackedValue::NTAGBITS = NBITS - NCHARS * 6`: the number of tag bits. -/
def NTAGBITS (w : Nat) : Nat := NBITS w - NCHARS w * 6

/-- `PackedValue::NCHARBITS = NBITS - NTAGBITS`: the number of coding bits. -/
def NCHARBITS (w : Nat) : Nat := NBITS w - NTAGBITS w

/-- The five widths for which the crate implements `PackedValue`. -/
def Widths : List Nat := [8, 16, 32, 64, 128]

/-- `value <<= k` on a `w`-bit unsigned integer.  The shift amount is masked by
the width, which is what a Rust release build does for an oversized shift. -/
def shlW (w v k : Nat) : Nat := v * 2 ^ (k % w) % 2 ^ w

/-- `PackedValue::truncating_cast_from`: `usize as uN`. -/
def truncCast (w i : Nat) : Nat := i % 2 ^ w

/-- `PackedValue::most_significant_byte`: the top 8 bits of a `w`-bit value. -/
def mostSignificantByte (w v : Nat) : Nat := v / 2 ^ (w - 8)

/-- The unassigned-slot sentinel `'\u{ffff}'` used to fill code-page slots. -/
def sentinelChar : Char := '￿'

/-- Page 00 00 (index 0), 64 entries, transcribed from `const LATIN` in src/lib.rs. -/
def LATIN : List Char :=
  ['\x00', '0', '1', '2', '3', '4', '5', '6',
   '7', '8', '9', 'A', 'B', 'C', 'D', 'E',
   'F', 'G', 'H', 'I', 'J', 'K', 'L', 'M',
   'N', 'O', 'P', 'Q', 'R', 'S', 'T', 'U',
   'V', 'W', 'X', 'Y', 'Z', '_', 'a', 'b',
   'c', 'd', 'e', 'f', 'g', 'h', 'i', 'j',
   'k', 'l', 'm', 'n', 'o', 'p', 'q', 'r',
   's', 't', 'u', 'v', 'w', 'x', 'y', 'z']

/-- Page 00 01 (index 1), 64 entries, transcribed from `const GREEK` in src/lib.rs. -/
def GREEK : List Char :=
  ['\x00', 'Ά', 'Έ', 'Ή', 'Ί', 'Ό', 'Ύ', 'Ώ',
   'Α', 'Β', 'Γ', 'Δ', 'Ε', 'Ζ', 'Η', 'Θ',
   'Ι', 'Κ', 'Λ', 'Μ', 'Ν', 'Ξ', 'Ο', 'Π',
   'Ρ', 'Σ', 'Τ', 'Υ', 'Φ', 'Χ', 'Ψ', 'Ω',
   'ά', 'έ', 'ή', 'ί', 'α', 'β', 'γ', 'δ',
   'ε', 'ζ', 'η', 'θ', 'ι', 'κ', 'λ', 'μ',
   'ν', 'ξ', 'ο', 'π', 'ρ', 'ς', 'σ', 'τ',
   'υ', 'φ', 'χ', 'ψ', 'ω', 'ό', 'ύ', 'ώ']

/-- Page 00 10 (index 2), 64 entries, transcribed from `const CYRILLIC` in src/lib.rs. -/
def CYRILLIC : List Char :=
  ['\x00', 'А', 'Б', 'В', 'Г', 'Д', 'Е', 'Ж',
   'З', 'И', 'Й', 'К', 'Л', 'М', 'Н', 'О',
   'П', 'Р', 'С', 'Т', 'У', 'Ф', 'Х', 'Ц',
   'Ч', 'Ш', 'Щ', 'Ъ', 'Ы', 'Ь', 'Э', 'Ю',
   'Я', 'а', 'б', 'в', 'г', 'д', 'е', 'ж',
   'з', 'и', 'й', 'к', 'л', 'м', 'н', 'о',
   'п', 'р', 'с', 'т', 'у', 'ф', 'х', 'ц',
   'ч', 'ш', 'щ', 'ы', 'ь', 'э', 'ю', 'я']

/-- Page 00 11 (index 3), 64 entries, transcribed from `const HEBREW` in src/lib.rs.
The final seven slots are unassigned and filled with the sentinel. -/
def HEBREW : List Char :=
  ['\x00', 'ְ', 'ֱ', 'ֲ', 'ֳ', 'ִ', 'ֵ', 'ֶ',
   'ַ', 'ָ', 'ֹ', 'ֺ', 'ֻ', 'ּ', 'ֽ', '־',
   'ֿ', '׀', 'ׁ', 'ׂ', '׃', 'ׄ', 'ׅ', '׆',
   'ׇ', 'א', 'ב', 'ג', 'ד', 'ה', 'ו', 'ז',
   'ח', 'ט', 'י', 'ך', 'כ', 'ל', 'ם', 'מ',
   'ן', 'נ', 'ס', 'ע', 'ף', 'פ', 'ץ', 'צ',
   'ק', 'ר', 'ש', 'ת', 'װ', 'ױ', 'ײ', '׳',
   '״', '￿', '￿', '￿', '￿', '￿', '￿', '￿']

/-- Page 01 00 (index 4), 64 entries, transcribed from `const ARABIC` in src/lib.rs.
The final nine slots are unassigned and filled with the sentinel. -/
def ARABIC : List Char :=
  ['\x00', '،', '؛', '؟', 'ء', 'ا', 'ب', 'ة',
   'ت', 'ث', 'ج', 'ح', 'خ', 'د', 'ذ', 'ر',
   'ز', 'س', 'ش', 'ص', 'ض', 'ط', 'ظ', 'ع',
   'غ', 'ف', 'ق', 'ل', 'م', 'ن', 'ه', 'و',
   'ى', 'ي', 'َ', 'ُ', 'ِ', 'ّ', 'ٓ', 'ٔ',
   'ٖ', 'ٗ', 'ٰ', 'ٹ', 'پ', 'چ', 'ڈ', 'ڑ',
   'ژ', 'ک', 'گ', 'ں', 'ھ', 'ے', '۔', '￿',
   '￿', '￿', '￿', '￿', '￿', '￿', '￿', '￿']

/-- Page 10 00 (index 8), 64 entries, transcribed from `const DEVANAGARI` in src/lib.rs.
The final slot is unassigned and filled with the sentinel. -/
def DEVANAGARI : List Char :=
  ['\x00', 'ँ', 'ं', 'ः', 'अ', 'आ', 'इ', 'ई',
   'उ', 'ऊ', 'ऋ', 'ए', 'ऐ', 'ओ', 'औ', 'क',
   'ख', 'ग', 'घ', 'ङ', 'च', 'छ', 'ज', 'झ',
   'ञ', 'ट', 'ठ', 'ड', 'ढ', 'ण', 'त', 'थ',
   'द', 'ध', 'न', 'प', 'फ', 'ब', 'भ', 'म',
   'य', 'र', 'ल', 'ळ', 'व', 'श', 'ष', 'स',
   'ह', '़', 'ा', 'ि', 'ी', 'ु', 'ू', 'ृ',
   'े', 'ै', 'ो', 'ौ', '्', '।', '॥', '￿']

/-- Page 10 11 (index 11), 64 entries, transcribed from
`const HANGUL_COMPATIBILITY_JAMO` in src/lib.rs.
The final twelve slots are unassigned and filled with the sentinel. -/
def HANGUL_COMPATIBILITY_JAMO : List Char :=
  ['\x00', 'ㄱ', 'ㄲ', 'ㄳ', 'ㄴ', 'ㄵ', 'ㄶ', 'ㄷ',
   'ㄸ', 'ㄹ', 'ㄺ', 'ㄻ', 'ㄼ', 'ㄽ', 'ㄾ', 'ㄿ',
   'ㅀ', 'ㅁ', 'ㅂ', 'ㅃ', 'ㅄ', 'ㅅ', 'ㅆ', 'ㅇ',
   'ㅈ', 'ㅉ', 'ㅊ', 'ㅋ', 'ㅌ', 'ㅍ', 'ㅎ', 'ㅏ',
   'ㅐ', 'ㅑ', 'ㅒ', 'ㅓ', 'ㅔ', 'ㅕ', 'ㅖ', 'ㅗ',
   'ㅘ', 'ㅙ', 'ㅚ', 'ㅛ', 'ㅜ', 'ㅝ', 'ㅞ', 'ㅟ',
   'ㅠ', 'ㅡ', 'ㅢ', 'ㅣ', '￿', '￿', '￿', '￿',
   '￿', '￿', '￿', '￿', '￿', '￿', '￿', '￿']

/-- Page 11 11 (index 15), 64 entries, transcribed from `const HALFWIDTH_KANA`
in src/lib.rs. -/
def HALFWIDTH_KANA : List Char :=
  ['\x00', '｡', '｢', '｣', '､', '･', 'ｦ', 'ｧ',
   'ｨ', 'ｩ', 'ｪ', 'ｫ', 'ｬ', 'ｭ', 'ｮ', 'ｯ',
   'ｰ', 'ｱ', 'ｲ', 'ｳ', 'ｴ', 'ｵ', 'ｶ', 'ｷ',
   'ｸ', 'ｹ', 'ｺ', 'ｻ', 'ｼ', 'ｽ', 'ｾ', 'ｿ',
   'ﾀ', 'ﾁ', 'ﾂ', 'ﾃ', 'ﾄ', 'ﾅ', 'ﾆ', 'ﾇ',
   'ﾈ', 'ﾉ', 'ﾊ', 'ﾋ', 'ﾌ', 'ﾍ', 'ﾎ', 'ﾏ',
   'ﾐ', 'ﾑ', 'ﾒ', 'ﾓ', 'ﾔ', 'ﾕ', 'ﾖ', 'ﾗ',
   'ﾘ', 'ﾙ', 'ﾚ', 'ﾛ', 'ﾜ', 'ﾝ', 'ﾞ', 'ﾟ']

/-- All-sentinel reserved page, transcribed from `const RESERVED` in src/lib.rs. -/
def RESERVED : List Char :=
  ['￿', '￿', '￿', '￿', '￿', '￿', '￿', '￿',
   '￿', '￿', '￿', '￿', '￿', '￿', '￿', '￿',
   '￿', '￿', '￿', '￿', '￿', '￿', '￿', '￿',
   '￿', '￿', '￿', '￿', '￿', '￿', '￿', '￿',
   '￿', '￿', '￿', '￿', '￿', '￿', '￿', '￿',
   '￿', '￿', '￿', '￿', '￿', '￿', '￿', '￿',
   '￿', '￿', '￿', '￿', '￿', '￿', '￿', '￿',
   '￿', '￿', '￿', '￿', '￿', '￿', '￿', '￿']

/-- `const CHINESE : [char; 64] = RESERVED` — the Chinese tag's 64-entry table
is the reserved page; the real encoding of that block is the 15-bit delta. -/
def CHINESE : List Char := RESERVED

/-- `const CHINESE_LO : char = '\u{4e00}'` as a scalar value. -/
def CHINESE_LO : Nat := 0x4E00

/-- `const CHINESE_HI : char = '\u{9fff}'` as a scalar value. -/
def CHINESE_HI : Nat := 0x9FFF

/-- `const CHINESE_2BIT_TAG : usize = 0b11`. -/
def CHINESE_2BIT_TAG : Nat := 0b11

/-- `const CHINESE_4BIT_TAG : usize = 0b1100`. -/
def CHINESE_4BIT_TAG : Nat := 0b1100

/-- `const PAGES : [[char; 64]; 16]`, in the source's order. -/
def PAGES : List (List Char) :=
  [LATIN, GREEK, CYRILLIC, HEBREW,
   ARABIC, RESERVED, RESERVED, RESERVED,
   DEVANAGARI, RESERVED, RESERVED, HANGUL_COMPATIBILITY_JAMO,
   CHINESE, RESERVED, RESERVED, HALFWIDTH_KANA]

/-- `PAGES[p]` (always used with `p < 16`). -/
def page (p : Nat) : List Char := PAGES.getD p RESERVED

/-- One recursion of Rust's `slice::binary_search_by` loop, comparing by
scalar value (which is `char`'s `Ord`).  `fuel` only bounds the recursion;
the interval shrinks strictly every round, so `l.length + 1` rounds always
suffice for the call in `binary_search` below. -/
def bsearchGo (l : List Char) (t : Char) : Nat → Nat → Nat → Option Nat
  | _, _, 0 => none
  | left, right, fuel + 1 =>
    if left < right then
      let mid := left + (right - left) / 2
      let x := l.getD mid sentinelChar
      if x.toNat < t.toNat then bsearchGo l t (mid + 1) right fuel
      else if t.toNat < x.toNat then bsearchGo l t left mid fuel
      else some mid
    else none

/-- `slice::binary_search(&t)` on a code page: `some i` models `Ok(i)`. -/
def binary_search (l : List Char) (t : Char) : Option Nat :=
  bsearchGo l t 0 l.length (l.length + 1)

/-- Helper for `pageOf`: `Iterator::position` over the suffix `ps`, with `k`
pages already skipped. -/
def positionFrom (c : Char) : List (List Char) → Nat → Option Nat
  | [], _ => none
  | pg :: rest, k =>
    if (binary_search pg c).isSome then some k else positionFrom c rest (k + 1)

/-- `PAGES.iter().position(|&p| p.binary_search(&init).is_ok())`. -/
def pageOf (c : Char) : Option Nat := positionFrom c PAGES 0

/-- The encoder's error enum `EncodeError`. -/
inductive EncodeError : Type where
  | TooLong : EncodeError
  | NoCodePageFor : Char → EncodeError
  | PageUnavailable : Nat → EncodeError
  | MissingFromPage : Char → EncodeError
deriving DecidableEq, Repr

/-- `fn chinese_15bit_delta(c: char) -> Option<usize>`. -/
def chinese_15bit_delta (c : Char) : Option Nat :=
  if CHINESE_LO ≤ c.toNat ∧ c.toNat ≤ CHINESE_HI then some (c.toNat - CHINESE_LO)
  else none

/-- The ordinary-page loop of `encode` (`for c in pi { ... }` with final
padding `out <<= 6 * rem`): `out` is the accumulator, `rem` the remaining
character slots. -/
def encodePageLoop (w p : Nat) : Nat → Nat → List Char → Except EncodeError Nat
  | out, rem, [] => .ok (shlW w out (6 * rem))
  | out, rem, c :: cs =>
    if rem = 0 then .error .TooLong
    else
      match binary_search (page p) c with
      | none => .error (.MissingFromPage c)
      | some i => encodePageLoop w p (Nat.lor (shlW w out 6) (truncCast w i)) (rem - 1) cs

/-- The Chinese delta loop of `encode` (15-bit units, final padding
`out <<= rembits`). -/
def encodeChineseLoop (w : Nat) : Nat → Nat → List Char → Except EncodeError Nat
  | out, rembits, [] => .ok (shlW w out rembits)
  | out, rembits, c :: cs =>
    if rembits < 15 then .error .TooLong
    else
      match chinese_15bit_delta c with
      | none => .error (.MissingFromPage c)
      | some delta =>
        encodeChineseLoop w (Nat.lor (shlW w out 15) (truncCast w (delta + 1))) (rembits - 15) cs

/-- `pub fn encode<N, IT>(i: IT) -> Result<N, EncodeError>`.  The input is the
list of scalar values the iterator yields; `peek` does not consume, so both
loops run over the whole input including the first character. -/
def encode (w : Nat) (s : List Char) : Except EncodeError Nat :=
  match s with
  | [] => .ok 0
  | init :: _ =>
    if 0 < NCHARBITS w ∧ (chinese_15bit_delta init).isSome then
      let tag := if NTAGBITS w = 2 then CHINESE_2BIT_TAG else CHINESE_4BIT_TAG
      encodeChineseLoop w (truncCast w tag) (NCHARBITS w) s
    else
      match pageOf init with
      | none => .error (.NoCodePageFor init)
      | some p =>
        if NTAGBITS w = 2 ∧ p % 4 ≠ 0 then .error (.PageUnavailable p)
        else
          let tag := if NTAGBITS w = 2 then p / 4 else p
          encodePageLoop w p (truncCast w tag) (NCHARS w) s

/-- `char::from_u32`. -/
def char_from_u32 (n : Nat) : Option Char :=
  if Nat.isValidChar n then some (Char.ofNat n) else none

/-- The construction in `decode_sixbit`: recover the (4-bit-normalised) tag
and shift the value left past the tag bits.  Returns `(tag, tmp)`. -/
def decode_sixbit_init (w v : Nat) : Nat × Nat :=
  let tag0 := mostSignificantByte w v >>> (8 - NTAGBITS w)
  let tag := if NTAGBITS w = 2 then tag0 <<< 2 else tag0
  (tag, shlW w v (NTAGBITS w))

/-- One call of `DecodeSixbitIter::next`: `none` models `None` (end of the
sequence, also produced when `char::from_u32` fails), and `some (c, tmp')`
models `Some(c)` together with the updated accumulator. -/
def decodeStep (w tag tmp : Nat) : Option (Char × Nat) :=
  if tag = CHINESE_4BIT_TAG then
    let ch0 := mostSignificantByte w tmp
    if ch0 = 0 then none
    else
      let tmp1 := shlW w tmp 8
      let ch1 := mostSignificantByte w tmp1
      let tmp2 := shlW w tmp1 7
      let delta := Nat.lor (ch0 <<< 7) (ch1 >>> 1)
      match char_from_u32 (CHINESE_LO + delta - 1) with
      | some c => some (c, tmp2)
      | none => none
  else
    let ch := mostSignificantByte w tmp >>> 2
    if ch = 0 then none
    else some ((page tag).getD ch sentinelChar, shlW w tmp 6)

/-- Collect the decode iterator into a list.  `fuel` only bounds the
recursion; the accumulator is annihilated after at most `NCHARS w`
(respectively `deltaCap w`) steps, so the `fuel = w` used by `decode_sixbit`
never cuts the sequence short. -/
def decodeList (w tag : Nat) : Nat → Nat → List Char
  | _, 0 => []
  | tmp, fuel + 1 =>
    match decodeStep w tag tmp with
    | none => []
    | some (c, tmp2) => c :: decodeList w tag tmp2 fuel

/-- `v.decode_sixbit().collect()`: the full decoded character sequence. -/
def decode_sixbit (w v : Nat) : List Char :=
  decodeList w (decode_sixbit_init w v).1 (decode_sixbit_init w v).2 w

/-- A shift that models Rust's debug-mode behaviour: shifting a `w`-bit value
by `w` or more bits is an arithmetic-overflow panic (`none`). -/
def shlChecked (w v k : Nat) : Option Nat :=
  if k < w then some (v * 2 ^ k % 2 ^ w) else none

/-- `DecodeSixbitIter::next` with debug-mode overflow checks and explicit
bounds checks on the two table indexings; `.error ()` models a panic. -/
def decodeStepChecked (w tag tmp : Nat) : Except Unit (Option (Char × Nat)) :=
  if tag = CHINESE_4BIT_TAG then
    let ch0 := mostSignificantByte w tmp
    if ch0 = 0 then .ok none
    else
      match shlChecked w tmp 8 with
      | none => .error ()
      | some tmp1 =>
        let ch1 := mostSignificantByte w tmp1
        match shlChecked w tmp1 7 with
        | none => .error ()
        | some tmp2 =>
          let delta := Nat.lor (ch0 <<< 7) (ch1 >>> 1)
          match char_from_u32 (CHINESE_LO + delta - 1) with
          | some c => .ok (some (c, tmp2))
          | none => .ok none
  else
    let ch := mostSignificantByte w tmp >>> 2
    if ch = 0 then .ok none
    else if tag < PAGES.length ∧ ch < (page tag).length then
      match shlChecked w tmp 6 with
      | none => .error ()
      | some tmp2 => .ok (some ((page tag).getD ch sentinelChar, tmp2))
    else .error ()

/-- Collect the checked decode iterator, propagating a panic. -/
def decodeListChecked (w tag : Nat) : Nat → Nat → Except Unit (List Char)
  | _, 0 => .ok []
  | tmp, fuel + 1 =>
    match decodeStepChecked w tag tmp with
    | .error e => .error e
    | .ok none => .ok []
    | .ok (some (c, tmp2)) =>
      match decodeListChecked w tag tmp2 fuel with
      | .error e => .error e
      | .ok cs => .ok (c :: cs)

/-- `decode_sixbit` under debug-mode semantics: `.error ()` means a panic is
reached while draining the iterator. -/
def decode_sixbit_checked (w v : Nat) : Except Unit (List Char) :=
  decodeListChecked w (decode_sixbit_init w v).1 (decode_sixbit_init w v).2 w

/-- The number of 15-bit special slots: `(N - tag_bits(N)) / 15` (the crate
documentation's "max 15-bit chars" column). -/
def specialSlots (w : Nat) : Nat := NCHARBITS w / 15

/-- The number of 15-bit reads it takes to drain the coding region entirely:
`⌈NCHARBITS / 15⌉`.  Exceeds `specialSlots` exactly when `15 ∤ NCHARBITS`. -/
def deltaCap (w : Nat) : Nat := (NCHARBITS w + 14) / 15

/-- The Unicode block an initial character selects: the CJK delta block is
block 12 (the `CHINESE` slot of `PAGES`), every other character maps to the
first page containing it.  This is the block order used for cross-page
comparison. -/
def blockOf (c : Char) : Option Nat :=
  if (chinese_15bit_delta c).isSome then some 12 else pageOf c

/-- `Result::is_ok`. -/
def isOkE {ε α : Type} : Except ε α → Bool
  | .ok _ => true
  | .error _ => false

/-- `mapOpt f l` is `some (map f' l)` when `f` succeeds on every element of
`l`, otherwise `none`. -/
def mapOpt {α β : Type} (f : α → Option β) : List α → Option (List β)
  | [] => some []
  | x :: xs =>
    match f x, mapOpt f xs with
    | some y, some ys => some (y :: ys)
    | _, _ => none

/-- The 6-bit codes of a string on page `p`. -/
def pageCodes (p : Nat) (cs : List Char) : Option (List Nat) :=
  mapOpt (fun c => binary_search (page p) c) cs

/-- The 15-bit units (`delta + 1`) of a CJK string. -/
def deltasPlus1 (cs : List Char) : Option (List Nat) :=
  mapOpt (fun c => (chinese_15bit_delta c).map (· + 1)) cs

/-- The value of a left-justified string of base-`2^d` digits inside a
coding region of `B` bits: digits first, then zero padding. -/
def packDigits (d B : Nat) (ds : List Nat) : Nat :=
  ds.foldl (fun a x => a * 2 ^ d + x) 0 * 2 ^ (B - d * ds.length)

/-! ## Basic facts about the five widths and the machine operations -/

/-- Characters are determined by their scalar value. -/
theorem char_toNat_inj {a b : Char} (h : a.toNat = b.toNat) : a = b := by
  have h2 := congrArg Char.ofNat h
  rwa [Char.ofNat_toNat, Char.ofNat_toNat] at h2

/-- The structural facts about the bit layout shared by the five widths. -/
theorem width_facts {w : Nat} (hw : w ∈ Widths) :
    (NTAGBITS w = 2 ∨ NTAGBITS w = 4) ∧ 8 ≤ w ∧ NTAGBITS w + NCHARBITS w = w ∧
      NCHARBITS w = 6 * NCHARS w ∧ 0 < NCHARBITS w ∧ NCHARBITS w < w := by
  simp only [Widths, List.mem_cons, List.not_mem_nil, or_false] at hw
  rcases hw with rfl | rfl | rfl | rfl | rfl <;> exact ⟨by decide, by decide, by decide,
    by decide, by decide, by decide⟩

/-- Oring a value into the zeroed low `k` bits is addition. -/
theorem lor_two_pow_add : ∀ k a b : Nat, b < 2 ^ k → Nat.lor (2 ^ k * a) b = 2 ^ k * a + b := by
  intro k
  induction k with
  | zero =>
    intro a b hb
    have hb0 : b = 0 := Nat.lt_one_iff.mp hb
    subst hb0
    simp only [pow_zero, one_mul, Nat.add_zero]
    exact Nat.or_zero a
  | succ k ih =>
    intro a b hb
    have hdiv : b.div2 < 2 ^ k := by
      rw [Nat.div2_val]
      rw [Nat.div_lt_iff_lt_mul (by norm_num)]
      calc b < 2 ^ (k + 1) := hb
        _ = 2 ^ k * 2 := by rw [Nat.pow_succ]
    have h2 : 2 ^ (k + 1) * a = Nat.bit false (2 ^ k * a) := by
      simp only [Nat.bit_false]
      ring
    calc Nat.lor (2 ^ (k + 1) * a) b
        = Nat.lor (Nat.bit false (2 ^ k * a)) (Nat.bit b.bodd b.div2) := by
          rw [h2, Nat.bit_decomp]
      _ = Nat.bit (false || b.bodd) (Nat.lor (2 ^ k * a) b.div2) := Nat.lor_bit _ _ _ _
      _ = Nat.bit b.bodd (2 ^ k * a + b.div2) := by rw [Bool.false_or, ih a b.div2 hdiv]
      _ = 2 ^ (k + 1) * a + b := by
          have hb' := Nat.bodd_add_div2 b
          have h1 : 2 ^ (k + 1) * a = 2 * (2 ^ k * a) := by ring
          rw [Nat.bit_val, h1]
          generalize 2 ^ k * a = m
          omega

/-- `shlW` is an exact shift when the result fits in the width. -/
theorem shlW_exact {w v k : Nat} (hk : k < w) (hfit : v * 2 ^ k < 2 ^ w) :
    shlW w v k = v * 2 ^ k := by
  unfold shlW
  rw [Nat.mod_eq_of_lt hk, Nat.mod_eq_of_lt hfit]

/-- `truncCast` is the identity on values that fit. -/
theorem truncCast_exact {w i : Nat} (h : i < 2 ^ w) : truncCast w i = i :=
  Nat.mod_eq_of_lt h

/-- The `out <<= 6; out |= code` step of the ordinary encode loop is exact
base-64 accumulation when everything fits in the width. -/
theorem encode_or6 {w out i : Nat} (hw : 8 ≤ w) (hi : i < 64) (hlt : out * 64 + i < 2 ^ w) :
    Nat.lor (shlW w out 6) (truncCast w i) = out * 64 + i := by
  have h64 : (2 : Nat) ^ 6 = 64 := by norm_num
  have h6 : (6 : Nat) < w := by omega
  have hfit : out * 2 ^ 6 < 2 ^ w := by rw [h64]; omega
  have hi2 : i < 2 ^ w := by
    have h := Nat.pow_le_pow_right (show 1 ≤ 2 by norm_num) (show 6 ≤ w by omega)
    rw [h64] at h
    omega
  rw [shlW_exact h6 hfit, truncCast_exact hi2]
  have h2 := lor_two_pow_add 6 out i (by rw [h64]; exact hi)
  rw [show out * 2 ^ 6 = 2 ^ 6 * out from Nat.mul_comm _ _, h2, h64]
  ring

/-- The `out <<= 15; out |= delta + 1` step of the delta encode loop is exact
base-`2^15` accumulation when everything fits in the width. -/
theorem encode_or15 {w out u : Nat} (hw : 15 < w) (hu : u < 32768)
    (hlt : out * 32768 + u < 2 ^ w) :
    Nat.lor (shlW w out 15) (truncCast w u) = out * 32768 + u := by
  have h15 : (2 : Nat) ^ 15 = 32768 := by norm_num
  have hfit : out * 2 ^ 15 < 2 ^ w := by rw [h15]; omega
  have hu2 : u < 2 ^ w := by
    have h := Nat.pow_le_pow_right (show 1 ≤ 2 by norm_num) (show 15 ≤ w by omega)
    rw [h15] at h
    omega
  rw [shlW_exact hw hfit, truncCast_exact hu2]
  have h2 := lor_two_pow_add 15 out u (by rw [h15]; exact hu)
  rw [show out * 2 ^ 15 = 2 ^ 15 * out from Nat.mul_comm _ _, h2, h15]
  ring

/-! ## Soundness of the binary search and facts about the page registry -/

/-- An element read through `getD` at a valid index is a member of the list. -/
theorem getD_mem {α : Type} {l : List α} {i : Nat} (h : i < l.length) (d : α) :
    l.getD i d ∈ l := by
  rw [List.getD_eq_getElem?_getD, List.getElem?_eq_getElem h]
  exact List.getElem_mem h

/-- The binary-search loop only returns indices whose entry compares equal to
the probe (by scalar value). -/
theorem bsearchGo_some (l : List Char) (t : Char) :
    ∀ fuel left right i, right ≤ l.length → bsearchGo l t left right fuel = some i →
      i < l.length ∧ (l.getD i sentinelChar).toNat = t.toNat := by
  intro fuel
  induction fuel with
  | zero =>
    intro left right i _ h
    simp [bsearchGo] at h
  | succ fuel ih =>
    intro left right i hr h
    rw [bsearchGo] at h
    by_cases hlr : left < right
    · rw [if_pos hlr] at h
      by_cases h1 : (l.getD (left + (right - left) / 2) sentinelChar).toNat < t.toNat
      · rw [if_pos h1] at h
        exact ih _ _ _ hr h
      · rw [if_neg h1] at h
        by_cases h2 : t.toNat < (l.getD (left + (right - left) / 2) sentinelChar).toNat
        · rw [if_pos h2] at h
          have hmid : left + (right - left) / 2 ≤ l.length := by omega
          exact ih _ _ _ hmid h
        · rw [if_neg h2] at h
          have hi : i = left + (right - left) / 2 := (Option.some_inj.mp h).symm
          subst hi
          constructor
          · have : (right - left) / 2 < right - left := Nat.div_lt_self (by omega) (by norm_num)
            omega
          · omega
    · rw [if_neg hlr] at h
      exact absurd h (by simp)

/-- Soundness of `binary_search`: a found index is in range and holds the
probe character. -/
theorem binary_search_some {l : List Char} {t : Char} {i : Nat}
    (h : binary_search l t = some i) :
    i < l.length ∧ l.getD i sentinelChar = t := by
  have h2 := bsearchGo_some l t (l.length + 1) 0 l.length i (le_refl _) h
  exact ⟨h2.1, char_toNat_inj h2.2⟩

/-- Boolean check that a list of characters is sorted (non-strictly) by
scalar value. -/
def sortedLeB : List Char → Bool
  | [] => true
  | [_] => true
  | a :: b :: rest => Nat.ble a.toNat b.toNat && sortedLeB (b :: rest)

/-- A sorted list's head is a lower bound for the tail. -/
theorem sortedLeB_head_le :
    ∀ (l : List Char) (a : Char), sortedLeB (a :: l) = true →
      ∀ j, j < l.length → a.toNat ≤ (l.getD j sentinelChar).toNat := by
  intro l
  induction l with
  | nil =>
    intro a _ j hj
    simp at hj
  | cons b rest ih =>
    intro a hs j hj
    have hab : a.toNat ≤ b.toNat := by
      have := (Bool.and_eq_true _ _).mp hs
      exact Nat.le_of_ble_eq_true this.1
    have hrest : sortedLeB (b :: rest) = true := ((Bool.and_eq_true _ _).mp hs).2
    cases j with
    | zero => simpa using hab
    | succ j' =>
      have hj' : j' < rest.length := by simpa using hj
      have := ih b hrest j' hj'
      calc a.toNat ≤ b.toNat := hab
        _ ≤ (rest.getD j' sentinelChar).toNat := this
      |>.trans_eq (by simp)

/-- Entries of a sorted list are monotone in the index. -/
theorem sortedLeB_mono :
    ∀ (l : List Char), sortedLeB l = true →
      ∀ i j, i < j → j < l.length →
        (l.getD i sentinelChar).toNat ≤ (l.getD j sentinelChar).toNat := by
  intro l
  induction l with
  | nil =>
    intro _ i j _ hj
    simp at hj
  | cons a rest ih =>
    intro hs i j hij hj
    have hrest : sortedLeB rest = true := by
      cases rest with
      | nil => rfl
      | cons b r2 => exact ((Bool.and_eq_true _ _).mp hs).2
    cases i with
    | zero =>
      cases j with
      | zero => omega
      | succ j' =>
        have hj' : j' < rest.length := by simpa using hj
        simpa using sortedLeB_head_le rest a hs j' hj'
    | succ i' =>
      cases j with
      | zero => omega
      | succ j' =>
        have hj' : j' < rest.length := by simpa using hj
        simpa using ih hrest i' j' (by omega) hj'

/-- Every page of the registry is sorted by scalar value (non-strictly: the
trailing sentinel slots repeat `U+FFFF`). -/
theorem pages_sorted : ∀ pg ∈ PAGES, sortedLeB pg = true := by decide

/-- Every page has exactly 64 entries. -/
theorem pages_length : ∀ pg ∈ PAGES, pg.length = 64 := by decide

/-- There are 16 pages. -/
theorem PAGES_length : PAGES.length = 16 := by decide

/-- In a sorted page, found indices are strictly monotone in the scalar value
of the probe. -/
theorem binary_search_mono {pg : List Char} (hs : sortedLeB pg = true) {c c' : Char}
    {i i' : Nat} (h : binary_search pg c = some i) (h' : binary_search pg c' = some i')
    (hcc : c.toNat < c'.toNat) : i < i' := by
  have hi := binary_search_some h
  have hi' := binary_search_some h'
  by_contra hle
  push_neg at hle
  rcases Nat.lt_or_ge i' i with hlt | hge
  · have := sortedLeB_mono pg hs i' i hlt hi.1
    rw [hi.2, hi'.2] at this
    omega
  · have : i = i' := by omega
    subst this
    rw [hi.2] at hi'
    have : c = c' := hi'.2.symm ▸ rfl
    subst this
    omega

/-- Specification of the page scan: `positionFrom` returns the offset of the
first page (within the scanned suffix) whose binary search succeeds. -/
theorem positionFrom_spec (c : Char) :
    ∀ (ps : List (List Char)) (k p : Nat), positionFrom c ps k = some p →
      k ≤ p ∧ p - k < ps.length ∧ (binary_search (ps.getD (p - k) RESERVED) c).isSome = true ∧
        ∀ j, j < p - k → (binary_search (ps.getD j RESERVED) c).isSome = false := by
  intro ps
  induction ps with
  | nil =>
    intro k p h
    simp [positionFrom] at h
  | cons pg rest ih =>
    intro k p h
    rw [positionFrom] at h
    by_cases hf : (binary_search pg c).isSome
    · rw [if_pos hf] at h
      have hp : p = k := (Option.some_inj.mp h).symm
      subst hp
      refine ⟨le_refl _, by simp, ?_, ?_⟩
      · simpa using hf
      · intro j hj
        omega
    · rw [if_neg hf] at h
      obtain ⟨h1, h2, h3, h4⟩ := ih (k + 1) p h
      have hpk : p - k = (p - (k + 1)) + 1 := by omega
      refine ⟨by omega, by simp; omega, ?_, ?_⟩
      · rw [hpk]
        simpa using h3
      · intro j hj
        cases j with
        | zero => simpa using hf
        | succ j' =>
          have : j' < p - (k + 1) := by omega
          simpa using h4 j' this

/-- Specification of `pageOf`: the returned index is the first page containing
the character. -/
theorem pageOf_spec {c : Char} {p : Nat} (h : pageOf c = some p) :
    p < 16 ∧ (binary_search (page p) c).isSome = true ∧
      ∀ q, q < p → (binary_search (page q) c).isSome = false := by
  obtain ⟨_, h2, h3, h4⟩ := positionFrom_spec c PAGES 0 p h
  rw [PAGES_length] at h2
  simp only [Nat.sub_zero] at h3 h4
  exact ⟨h2, h3, fun q hq => h4 q hq⟩

/-- Every entry of the reserved page is the sentinel. -/
theorem reserved_all_sentinel : ∀ x ∈ RESERVED, x = sentinelChar := by decide

/-- The sentinel is found in the Hebrew page (one of its unassigned slots). -/
theorem sentinel_in_hebrew : binary_search (page 3) sentinelChar = some 60 := by decide

/-- The eight page indices that `pageOf` can actually return: the reserved
slots 5, 6, 7, 9, 10, 12, 13 and 14 hold only sentinels, and a sentinel is
already found on page 3. -/
theorem pageOf_selectable {c : Char} {p : Nat} (h : pageOf c = some p) :
    p = 0 ∨ p = 1 ∨ p = 2 ∨ p = 3 ∨ p = 4 ∨ p = 8 ∨ p = 11 ∨ p = 15 := by
  obtain ⟨hp16, hfound, hmin⟩ := pageOf_spec h
  by_contra hsel
  push_neg at hsel
  have hres : page p = RESERVED := by
    interval_cases p <;> simp_all <;> rfl
  rw [hres] at hfound
  obtain ⟨i, hi⟩ := Option.isSome_iff_exists.mp hfound
  obtain ⟨hilen, hichar⟩ := binary_search_some hi
  have hc : c = sentinelChar := by
    rw [← hichar]
    exact reserved_all_sentinel _ (getD_mem hilen _)
  subst hc
  have h3lt : 3 < p := by omega
  have := hmin 3 h3lt
  rw [sentinel_in_hebrew] at this
  simp at this

/-- On each selectable page, slot 0 holds the terminator `'\x00'`. -/
theorem selectable_zero_slot :
    ∀ p, (p = 0 ∨ p = 1 ∨ p = 2 ∨ p = 3 ∨ p = 4 ∨ p = 8 ∨ p = 11 ∨ p = 15) →
      (page p).getD 0 sentinelChar = '\x00' := by
  intro p hp
  rcases hp with rfl | rfl | rfl | rfl | rfl | rfl | rfl | rfl <;> decide

/-- A non-terminator character never gets code 0. -/
theorem code_pos {c : Char} {p i : Nat}
    (hsel : p = 0 ∨ p = 1 ∨ p = 2 ∨ p = 3 ∨ p = 4 ∨ p = 8 ∨ p = 11 ∨ p = 15)
    (h : binary_search (page p) c = some i) (hc : c ≠ '\x00') : 0 < i := by
  rcases Nat.eq_zero_or_pos i with hz | hpos
  · subst hz
    have := (binary_search_some h).2
    rw [selectable_zero_slot p hsel] at this
    exact absurd this.symm hc
  · exact hpos

/-- No page contains a character of the CJK delta block. -/
theorem pages_no_cjk :
    ∀ pg ∈ PAGES, ∀ x ∈ pg, ¬(CHINESE_LO ≤ x.toNat ∧ x.toNat ≤ CHINESE_HI) := by decide

/-- A character found on some page is outside the CJK delta block, so the
encoder's delta check and the page scan are mutually exclusive. -/
theorem pageOf_not_cjk {c : Char} {p : Nat} (h : pageOf c = some p) :
    chinese_15bit_delta c = none := by
  obtain ⟨hp16, hfound, _⟩ := pageOf_spec h
  obtain ⟨i, hi⟩ := Option.isSome_iff_exists.mp hfound
  obtain ⟨hilen, hichar⟩ := binary_search_some hi
  have hpg : page p ∈ PAGES := by
    have : p < PAGES.length := by rw [PAGES_length]; exact hp16
    exact getD_mem this _
  have hmem : c ∈ page p := hichar ▸ getD_mem hilen _
  have := pages_no_cjk (page p) hpg c hmem
  unfold chinese_15bit_delta
  rw [if_neg this]

/-- Page lookup is injective on characters: two characters found at the same
index of the same page are equal. -/
theorem binary_search_inj {pg : List Char} {c c' : Char} {i : Nat}
    (h : binary_search pg c = some i) (h' : binary_search pg c' = some i) : c = c' := by
  have h1 := (binary_search_some h).2
  have h2 := (binary_search_some h').2
  rw [h1] at h2
  exact h2

/-! ## Arithmetic of left-justified digit strings -/

/-- Folding base-`2^d` accumulation from an arbitrary accumulator. -/
theorem foldlDigits_acc (d : Nat) :
    ∀ (ds : List Nat) (acc : Nat),
      ds.foldl (fun a x => a * 2 ^ d + x) acc =
        acc * 2 ^ (d * ds.length) + ds.foldl (fun a x => a * 2 ^ d + x) 0 := by
  intro ds
  induction ds with
  | nil => intro acc; simp
  | cons x ds ih =>
    intro acc
    rw [List.foldl_cons, List.foldl_cons, ih (acc * 2 ^ d + x), ih (0 * 2 ^ d + x)]
    simp only [Nat.zero_mul, Nat.zero_add, List.length_cons]
    ring

/-- Peeling the leading digit off a packed digit string. -/
theorem packDigits_cons {d B x : Nat} {ds : List Nat} (h : d * (ds.length + 1) ≤ B) :
    packDigits d B (x :: ds) = x * 2 ^ (B - d) + packDigits d (B - d) ds := by
  have hdB : d ≤ B := le_trans (Nat.le_mul_of_pos_right d (Nat.succ_pos _)) h
  have hrest : d * ds.length ≤ B - d := by
    rw [Nat.mul_succ] at h
    exact Nat.le_sub_of_add_le h
  unfold packDigits
  rw [List.foldl_cons, foldlDigits_acc d ds (0 * 2 ^ d + x)]
  simp only [Nat.zero_mul, Nat.zero_add, List.length_cons]
  have h1 : B - d * (ds.length + 1) = (B - d) - d * ds.length := by
    rw [Nat.mul_succ]
    omega
  rw [h1, Nat.add_mul, Nat.mul_assoc, ← Nat.pow_add]
  have h2 : d * ds.length + ((B - d) - d * ds.length) = B - d := by omega
  rw [h2]

/-- A packed digit string fits in its coding region. -/
theorem packDigits_lt :
    ∀ (ds : List Nat) (d B : Nat), (∀ x ∈ ds, x < 2 ^ d) → d * ds.length ≤ B →
      packDigits d B ds < 2 ^ B := by
  intro ds
  induction ds with
  | nil =>
    intro d B _ _
    simp only [packDigits, List.foldl_nil, Nat.zero_mul]
    exact Nat.two_pow_pos B
  | cons x ds ih =>
    intro d B hx hlen
    rw [List.length_cons] at hlen
    have hdB : d ≤ B := le_trans (Nat.le_mul_of_pos_right d (Nat.succ_pos _)) hlen
    have hrest : d * ds.length ≤ B - d := by
      rw [Nat.mul_succ] at hlen
      exact Nat.le_sub_of_add_le hlen
    rw [packDigits_cons hlen]
    have h1 : packDigits d (B - d) ds < 2 ^ (B - d) :=
      ih d (B - d) (fun y hy => hx y (List.mem_cons_of_mem _ hy)) hrest
    have h2 : x < 2 ^ d := hx x (List.mem_cons_self _ _)
    have h3 : (x + 1) * 2 ^ (B - d) ≤ 2 ^ d * 2 ^ (B - d) :=
      Nat.mul_le_mul_right _ (by omega)
    have h4 : 2 ^ d * 2 ^ (B - d) = 2 ^ B := by
      rw [← Nat.pow_add]
      congr 1
      omega
    calc x * 2 ^ (B - d) + packDigits d (B - d) ds
        < x * 2 ^ (B - d) + 2 ^ (B - d) := Nat.add_lt_add_left h1 _
      _ = (x + 1) * 2 ^ (B - d) := by ring
      _ ≤ 2 ^ B := h4 ▸ h3

/-- The head digit bounds the packed string from below. -/
theorem packDigits_head_le {d B x : Nat} {ds : List Nat} (h : d * (ds.length + 1) ≤ B) :
    x * 2 ^ (B - d) ≤ packDigits d B (x :: ds) := by
  rw [packDigits_cons h]
  exact Nat.le_add_right _ _

/-- A nonempty digit string with nonzero digits packs to a positive value. -/
theorem packDigits_pos {d B x : Nat} {ds : List Nat} (hx : 1 ≤ x)
    (h : d * (ds.length + 1) ≤ B) : 0 < packDigits d B (x :: ds) := by
  have h1 := @packDigits_head_le d B x ds h
  have h2 : 0 < 2 ^ (B - d) := Nat.two_pow_pos _
  have : 0 < x * 2 ^ (B - d) := Nat.mul_pos hx h2
  omega

/-- Lexicographic order of valid digit strings gives numeric order of their
packed values, including the strict-prefix case. -/
theorem packDigits_lt_of_lex :
    ∀ {ds es : List Nat}, List.Lex (· < ·) ds es →
      ∀ B d, (∀ x ∈ ds, x < 2 ^ d) → (∀ x ∈ es, 1 ≤ x) → (∀ x ∈ es, x < 2 ^ d) →
        d * ds.length ≤ B → d * es.length ≤ B →
        packDigits d B ds < packDigits d B es := by
  intro ds es hlex
  induction hlex with
  | @nil e es' =>
    intro B d _ hes1 _ _ hles
    rw [List.length_cons] at hles
    have h0 : packDigits d B [] = 0 := by
      simp [packDigits]
    rw [h0]
    exact packDigits_pos (hes1 e (List.mem_cons_self _ _)) hles
  | @cons a l₁ l₂ h ih =>
    intro B d hds hes1 hes hlds hles
    rw [List.length_cons] at hlds hles
    rw [packDigits_cons hlds, packDigits_cons hles]
    have hrec : packDigits d (B - d) l₁ < packDigits d (B - d) l₂ := by
      apply ih (B - d) d
      · exact fun y hy => hds y (List.mem_cons_of_mem _ hy)
      · exact fun y hy => hes1 y (List.mem_cons_of_mem _ hy)
      · exact fun y hy => hes y (List.mem_cons_of_mem _ hy)
      · rw [Nat.mul_succ] at hlds
        exact Nat.le_sub_of_add_le hlds
      · rw [Nat.mul_succ] at hles
        exact Nat.le_sub_of_add_le hles
    exact Nat.add_lt_add_left hrec _
  | @rel a l₁ b l₂ h =>
    intro B d hds hes1 hes hlds hles
    rw [List.length_cons] at hlds hles
    rw [packDigits_cons hlds, packDigits_cons hles]
    have h1 : packDigits d (B - d) l₁ < 2 ^ (B - d) := by
      apply packDigits_lt
      · exact fun y hy => hds y (List.mem_cons_of_mem _ hy)
      · rw [Nat.mul_succ] at hlds
        exact Nat.le_sub_of_add_le hlds
    calc a * 2 ^ (B - d) + packDigits d (B - d) l₁
        < a * 2 ^ (B - d) + 2 ^ (B - d) := Nat.add_lt_add_left h1 _
      _ = (a + 1) * 2 ^ (B - d) := by ring
      _ ≤ b * 2 ^ (B - d) := Nat.mul_le_mul_right _ (by omega)
      _ ≤ b * 2 ^ (B - d) + packDigits d (B - d) l₂ := Nat.le_add_right _ _

/-- Packing is injective on valid digit strings. -/
theorem packDigits_inj :
    ∀ (ds es : List Nat) (B d : Nat),
      (∀ x ∈ ds, 1 ≤ x) → (∀ x ∈ ds, x < 2 ^ d) →
      (∀ x ∈ es, 1 ≤ x) → (∀ x ∈ es, x < 2 ^ d) →
      d * ds.length ≤ B → d * es.length ≤ B →
      packDigits d B ds = packDigits d B es → ds = es := by
  intro ds
  induction ds with
  | nil =>
    intro es B d _ _ hes1 _ _ hles heq
    cases es with
    | nil => rfl
    | cons e es' =>
      exfalso
      rw [List.length_cons] at hles
      have h0 : packDigits d B [] = 0 := by simp [packDigits]
      have := packDigits_pos (hes1 e (List.mem_cons_self _ _)) hles
      omega
  | cons x ds' ih =>
    intro es B d hds1 hds hes1 hes hlds hles heq
    cases es with
    | nil =>
      exfalso
      rw [List.length_cons] at hlds
      have h0 : packDigits d B [] = 0 := by simp [packDigits]
      have := packDigits_pos (hds1 x (List.mem_cons_self _ _)) hlds
      omega
    | cons y es' =>
      rw [List.length_cons] at hlds hles
      rw [packDigits_cons hlds, packDigits_cons hles] at heq
      have hr1 : packDigits d (B - d) ds' < 2 ^ (B - d) := by
        apply packDigits_lt
        · exact fun z hz => hds z (List.mem_cons_of_mem _ hz)
        · rw [Nat.mul_succ] at hlds
          exact Nat.le_sub_of_add_le hlds
      have hr2 : packDigits d (B - d) es' < 2 ^ (B - d) := by
        apply packDigits_lt
        · exact fun z hz => hes z (List.mem_cons_of_mem _ hz)
        · rw [Nat.mul_succ] at hles
          exact Nat.le_sub_of_add_le hles
      have hxy : x = y := by
        rcases Nat.lt_trichotomy x y with hlt | heq2 | hgt
        · exfalso
          have : x * 2 ^ (B - d) + packDigits d (B - d) ds'
              < y * 2 ^ (B - d) + packDigits d (B - d) es' := by
            calc x * 2 ^ (B - d) + packDigits d (B - d) ds'
                < x * 2 ^ (B - d) + 2 ^ (B - d) := Nat.add_lt_add_left hr1 _
              _ = (x + 1) * 2 ^ (B - d) := by ring
              _ ≤ y * 2 ^ (B - d) := Nat.mul_le_mul_right _ (by omega)
              _ ≤ _ := Nat.le_add_right _ _
          omega
        · exact heq2
        · exfalso
          have : y * 2 ^ (B - d) + packDigits d (B - d) es'
              < x * 2 ^ (B - d) + packDigits d (B - d) ds' := by
            calc y * 2 ^ (B - d) + packDigits d (B - d) es'
                < y * 2 ^ (B - d) + 2 ^ (B - d) := Nat.add_lt_add_left hr2 _
              _ = (y + 1) * 2 ^ (B - d) := by ring
              _ ≤ x * 2 ^ (B - d) := Nat.mul_le_mul_right _ (by omega)
              _ ≤ _ := Nat.le_add_right _ _
          omega
      subst hxy
      have htail : packDigits d (B - d) ds' = packDigits d (B - d) es' := by
        have := Nat.add_left_cancel heq
        exact this
      have : ds' = es' := by
        apply ih es' (B - d) d
        · exact fun z hz => hds1 z (List.mem_cons_of_mem _ hz)
        · exact fun z hz => hds z (List.mem_cons_of_mem _ hz)
        · exact fun z hz => hes1 z (List.mem_cons_of_mem _ hz)
        · exact fun z hz => hes z (List.mem_cons_of_mem _ hz)
        · rw [Nat.mul_succ] at hlds
          exact Nat.le_sub_of_add_le hlds
        · rw [Nat.mul_succ] at hles
          exact Nat.le_sub_of_add_le hles
        · exact htail
      rw [this]

/-! ## Facts about `mapOpt` (per-character lookup over a whole string) -/

/-- Inverting `mapOpt` on a cons cell. -/
theorem mapOpt_cons_inv {α β : Type} {f : α → Option β} {x : α} {xs : List α} {ds : List β}
    (h : mapOpt f (x :: xs) = some ds) :
    ∃ y ys, f x = some y ∧ mapOpt f xs = some ys ∧ ds = y :: ys := by
  rw [mapOpt] at h
  cases hfx : f x with
  | none =>
    rw [hfx] at h
    simp at h
  | some y =>
    cases hxs : mapOpt f xs with
    | none =>
      rw [hfx, hxs] at h
      simp at h
    | some ys =>
      rw [hfx, hxs] at h
      exact ⟨y, ys, rfl, rfl, (Option.some_inj.mp h).symm⟩

/-- `mapOpt` preserves length. -/
theorem mapOpt_length {α β : Type} (f : α → Option β) :
    ∀ (l : List α) (ds : List β), mapOpt f l = some ds → ds.length = l.length := by
  intro l
  induction l with
  | nil =>
    intro ds h
    rw [mapOpt] at h
    rw [← Option.some_inj.mp h]
    rfl
  | cons x xs ih =>
    intro ds h
    obtain ⟨y, ys, _, hys, rfl⟩ := mapOpt_cons_inv h
    simp [ih ys hys]

/-- Every output of `mapOpt` comes from some input element. -/
theorem mapOpt_mem {α β : Type} (f : α → Option β) :
    ∀ (l : List α) (ds : List β), mapOpt f l = some ds →
      ∀ y ∈ ds, ∃ x ∈ l, f x = some y := by
  intro l
  induction l with
  | nil =>
    intro ds h y hy
    rw [mapOpt] at h
    rw [← Option.some_inj.mp h] at hy
    simp at hy
  | cons x xs ih =>
    intro ds h y hy
    obtain ⟨z, zs, hfx, hzs, rfl⟩ := mapOpt_cons_inv h
    rcases List.mem_cons.mp hy with rfl | htail
    · exact ⟨x, List.mem_cons_self _ _, hfx⟩
    · obtain ⟨x', hx', hfx'⟩ := ih zs hzs y htail
      exact ⟨x', List.mem_cons_of_mem _ hx', hfx'⟩

/-- A strictly monotone per-character code map carries lexicographic order of
strings to lexicographic order of their code strings. -/
theorem mapOpt_lex {f : Char → Option Nat}
    (hmono : ∀ c i c' i', f c = some i → f c' = some i' → c.toNat < c'.toNat → i < i') :
    ∀ {a b : List Char}, List.Lex (fun x y : Char => x.toNat < y.toNat) a b →
      ∀ ds es, mapOpt f a = some ds → mapOpt f b = some es →
        List.Lex (· < ·) ds es := by
  intro a b hlex
  induction hlex with
  | @nil y b' =>
    intro ds es hds hes
    rw [mapOpt] at hds
    obtain ⟨j, es', _, _, rfl⟩ := mapOpt_cons_inv hes
    rw [← Option.some_inj.mp hds]
    exact List.Lex.nil
  | @cons x a' b' _ ih =>
    intro ds es hds hes
    obtain ⟨i, ds', hfx, hds', rfl⟩ := mapOpt_cons_inv hds
    obtain ⟨i', es', hfx', hes', rfl⟩ := mapOpt_cons_inv hes
    have hii : i = i' := Option.some_inj.mp (hfx ▸ hfx')
    subst hii
    exact List.Lex.cons (ih ds' es' hds' hes')
  | @rel x a' y b' hr =>
    intro ds es hds hes
    obtain ⟨i, ds', hfx, _, rfl⟩ := mapOpt_cons_inv hds
    obtain ⟨j, es', hfy, _, rfl⟩ := mapOpt_cons_inv hes
    exact List.Lex.rel (hmono x i y j hfx hfy hr)

/-- An injective per-character code map makes `mapOpt` injective. -/
theorem mapOpt_inj {f : Char → Option Nat}
    (hinj : ∀ c c' i, f c = some i → f c' = some i → c = c') :
    ∀ (a b : List Char) (ds : List Nat),
      mapOpt f a = some ds → mapOpt f b = some ds → a = b := by
  intro a
  induction a with
  | nil =>
    intro b ds ha hb
    rw [mapOpt] at ha
    rw [← Option.some_inj.mp ha] at hb
    cases b with
    | nil => rfl
    | cons y b' =>
      obtain ⟨_, _, _, _, h⟩ := mapOpt_cons_inv hb
      simp at h
  | cons x a' ih =>
    intro b ds ha hb
    obtain ⟨i, ds', hfx, hds', rfl⟩ := mapOpt_cons_inv ha
    cases b with
    | nil =>
      rw [mapOpt] at hb
      simp at hb
    | cons y b' =>
      obtain ⟨j, es', hfy, hes', heq⟩ := mapOpt_cons_inv hb
      injection heq with h1 h2
      subst h1
      subst h2
      have hxy : x = y := hinj x y i hfx hfy
      rw [hxy, ih b' ds' hds' hes']

/-! ## Characterising the two encode loops -/

/-- Every page slice has 64 entries (out-of-range indices default to the
reserved page). -/
theorem page_length (p : Nat) : (page p).length = 64 := by
  unfold page
  by_cases h : p < PAGES.length
  · exact pages_length _ (getD_mem h _)
  · rw [List.getD_eq_getElem?_getD, List.getElem?_eq_none (by omega)]
    rfl

/-- Range facts read off a successful CJK delta lookup. -/
theorem chinese_delta_bound {c : Char} {delta : Nat}
    (h : chinese_15bit_delta c = some delta) :
    delta ≤ 0x51FF ∧ c.toNat = CHINESE_LO + delta := by
  unfold chinese_15bit_delta at h
  by_cases hc : CHINESE_LO ≤ c.toNat ∧ c.toNat ≤ CHINESE_HI
  · rw [if_pos hc] at h
    have hd : c.toNat - CHINESE_LO = delta := Option.some_inj.mp h
    unfold CHINESE_LO CHINESE_HI at hc
    unfold CHINESE_LO at hd ⊢
    omega
  · rw [if_neg hc] at h
    exact absurd h (by simp)

/-- The value produced by a successful run of the ordinary encode loop: the
looked-up codes of all remaining characters, packed left-justified after the
current accumulator. -/
theorem encodePageLoop_spec :
    ∀ (cs : List Char) (w p out rem v : Nat), 8 ≤ w →
      out < 2 ^ (w - 6 * rem) → 6 * rem < w →
      encodePageLoop w p out rem cs = .ok v →
      ∃ ds, pageCodes p cs = some ds ∧ ds.length ≤ rem ∧ (∀ i ∈ ds, i < 64) ∧
        v = out * 2 ^ (6 * rem) + packDigits 6 (6 * rem) ds := by
  intro cs
  induction cs with
  | nil =>
    intro w p out rem v hw hout hrw h
    rw [encodePageLoop] at h
    refine ⟨[], rfl, by simp, by simp, ?_⟩
    have hfit : out * 2 ^ (6 * rem) < 2 ^ w := by
      have h1 : out + 1 ≤ 2 ^ (w - 6 * rem) := hout
      have h2 : (out + 1) * 2 ^ (6 * rem) ≤ 2 ^ (w - 6 * rem) * 2 ^ (6 * rem) :=
        Nat.mul_le_mul_right _ h1
      rw [← Nat.pow_add] at h2
      have h3 : w - 6 * rem + 6 * rem = w := by omega
      rw [h3] at h2
      have h4 : out * 2 ^ (6 * rem) < (out + 1) * 2 ^ (6 * rem) :=
        (Nat.mul_lt_mul_right (Nat.two_pow_pos _)).mpr (by omega)
      omega
    rw [shlW_exact hrw hfit] at h
    simp only [packDigits, List.foldl_nil, Nat.zero_mul, Nat.add_zero]
    injection h with h5
    omega
  | cons c cs ih =>
    intro w p out rem v hw hout hrw h
    rw [encodePageLoop] at h
    by_cases hrem : rem = 0
    · rw [if_pos hrem] at h
      exact absurd h (by simp)
    · rw [if_neg hrem] at h
      obtain ⟨r, rfl⟩ : ∃ r, rem = r + 1 := ⟨rem - 1, by omega⟩
      cases hbs : binary_search (page p) c with
      | none =>
        rw [hbs] at h
        exact absurd h (by simp)
      | some i =>
        rw [hbs] at h
        have hi64 : i < 64 := by
          have := (binary_search_some hbs).1
          rwa [page_length] at this
        have hstep : 2 ^ (w - 6 * (r + 1)) * 2 ^ 6 = 2 ^ (w - 6 * r) := by
          rw [← Nat.pow_add]
          congr 1
          omega
        have hout' : out * 64 + i < 2 ^ (w - 6 * r) := by
          have h1 : out + 1 ≤ 2 ^ (w - 6 * (r + 1)) := hout
          have h2 : (out + 1) * 2 ^ 6 ≤ 2 ^ (w - 6 * (r + 1)) * 2 ^ 6 :=
            Nat.mul_le_mul_right _ h1
          rw [hstep] at h2
          have h3 : (out + 1) * 2 ^ 6 = out * 64 + 64 := by ring
          omega
        have hfitw : out * 64 + i < 2 ^ w := by
          have : (2 : Nat) ^ (w - 6 * r) ≤ 2 ^ w :=
            Nat.pow_le_pow_right (by norm_num) (by omega)
          omega
        replace h : encodePageLoop w p (Nat.lor (shlW w out 6) (truncCast w i))
            (r + 1 - 1) cs = Except.ok v := h
        rw [encode_or6 hw hi64 hfitw] at h
        have hsimp : r + 1 - 1 = r := by omega
        rw [hsimp] at h
        obtain ⟨ds, hds, hlen, hd64, hv⟩ :=
          ih w p (out * 64 + i) r v hw hout' (by omega) h
        refine ⟨i :: ds, ?_, by simp; omega, ?_, ?_⟩
        · unfold pageCodes at hds ⊢
          rw [mapOpt, hbs, hds]
        · intro j hj
          rcases List.mem_cons.mp hj with rfl | hj2
          · exact hi64
          · exact hd64 j hj2
        · rw [hv]
          have hlen6 : 6 * (ds.length + 1) ≤ 6 * (r + 1) := by omega
          rw [packDigits_cons hlen6]
          have he1 : 6 * (r + 1) - 6 = 6 * r := by omega
          have he2 : 2 ^ (6 * (r + 1)) = 2 ^ (6 * r) * 2 ^ 6 := by ring
          rw [he1, he2]
          have h64 : (2 : Nat) ^ 6 = 64 := by norm_num
          rw [h64]
          ring

/-- The value produced by a successful run of the delta encode loop: the
`delta + 1` units of all remaining characters, packed left-justified after
the current accumulator. -/
theorem encodeChineseLoop_spec :
    ∀ (cs : List Char) (w out rembits v : Nat),
      out < 2 ^ (w - rembits) → rembits < w →
      encodeChineseLoop w out rembits cs = .ok v →
      ∃ us, deltasPlus1 cs = some us ∧ 15 * us.length ≤ rembits ∧
        (∀ u ∈ us, 1 ≤ u ∧ u < 32768) ∧
        v = out * 2 ^ rembits + packDigits 15 rembits us := by
  intro cs
  induction cs with
  | nil =>
    intro w out rembits v hout hrw h
    rw [encodeChineseLoop] at h
    refine ⟨[], rfl, by simp, by simp, ?_⟩
    have hfit : out * 2 ^ rembits < 2 ^ w := by
      have h1 : out + 1 ≤ 2 ^ (w - rembits) := hout
      have h2 : (out + 1) * 2 ^ rembits ≤ 2 ^ (w - rembits) * 2 ^ rembits :=
        Nat.mul_le_mul_right _ h1
      rw [← Nat.pow_add] at h2
      have h3 : w - rembits + rembits = w := by omega
      rw [h3] at h2
      have h4 : out * 2 ^ rembits < (out + 1) * 2 ^ rembits :=
        (Nat.mul_lt_mul_right (Nat.two_pow_pos _)).mpr (by omega)
      omega
    rw [shlW_exact hrw hfit] at h
    simp only [packDigits, List.foldl_nil, Nat.zero_mul, Nat.add_zero]
    injection h with h5
    omega
  | cons c cs ih =>
    intro w out rembits v hout hrw h
    rw [encodeChineseLoop] at h
    by_cases hrem : rembits < 15
    · rw [if_pos hrem] at h
      exact absurd h (by simp)
    · rw [if_neg hrem] at h
      push_neg at hrem
      cases hbs : chinese_15bit_delta c with
      | none =>
        rw [hbs] at h
        exact absurd h (by simp)
      | some delta =>
        rw [hbs] at h
        replace h : encodeChineseLoop w (Nat.lor (shlW w out 15) (truncCast w (delta + 1)))
            (rembits - 15) cs = Except.ok v := h
        have hdb := (chinese_delta_bound hbs).1
        have hu : delta + 1 < 32768 := by omega
        have hstep : 2 ^ (w - rembits) * 2 ^ 15 = 2 ^ (w - (rembits - 15)) := by
          rw [← Nat.pow_add]
          congr 1
          omega
        have hout' : out * 32768 + (delta + 1) < 2 ^ (w - (rembits - 15)) := by
          have h1 : out + 1 ≤ 2 ^ (w - rembits) := hout
          have h2 : (out + 1) * 2 ^ 15 ≤ 2 ^ (w - rembits) * 2 ^ 15 :=
            Nat.mul_le_mul_right _ h1
          rw [hstep] at h2
          have h3 : (out + 1) * 2 ^ 15 = out * 32768 + 32768 := by
            rw [show (2 : Nat) ^ 15 = 32768 by norm_num]
            ring
          omega
        have hfitw : out * 32768 + (delta + 1) < 2 ^ w := by
          have : (2 : Nat) ^ (w - (rembits - 15)) ≤ 2 ^ w :=
            Nat.pow_le_pow_right (by norm_num) (by omega)
          omega
        rw [encode_or15 (by omega) hu hfitw] at h
        obtain ⟨us, hus, hlen, hub, hv⟩ :=
          ih w (out * 32768 + (delta + 1)) (rembits - 15) v hout' (by omega) h
        refine ⟨(delta + 1) :: us, ?_, ?_, ?_, ?_⟩
        · unfold deltasPlus1 at hus ⊢
          simp only [mapOpt, hbs, hus, Option.map_some']
        · simp only [List.length_cons]
          omega
        · intro u hu2
          rcases List.mem_cons.mp hu2 with rfl | hu3
          · exact ⟨by omega, hu⟩
          · exact hub u hu3
        · rw [hv]
          have hlen15 : 15 * (us.length + 1) ≤ rembits := by omega
          rw [packDigits_cons hlen15]
          have he2 : 2 ^ rembits = 2 ^ (rembits - 15) * 2 ^ 15 := by
            rw [← Nat.pow_add]
            congr 1
            omega
          calc (out * 32768 + (delta + 1)) * 2 ^ (rembits - 15) +
                packDigits 15 (rembits - 15) us
              = out * (2 ^ (rembits - 15) * 2 ^ 15) +
                ((delta + 1) * 2 ^ (rembits - 15) + packDigits 15 (rembits - 15) us) := by
                have h15 : (2 : Nat) ^ 15 = 32768 := by norm_num
                rw [h15]
                ring
            _ = out * 2 ^ rembits +
                ((delta + 1) * 2 ^ (rembits - 15) + packDigits 15 (rembits - 15) us) := by
                rw [← he2]

/-- The ordinary encode loop succeeds when every character is on the page and
there is room. -/
theorem encodePageLoop_ok :
    ∀ (cs : List Char) (w p out rem : Nat),
      (∀ c ∈ cs, (binary_search (page p) c).isSome = true) → cs.length ≤ rem →
      isOkE (encodePageLoop w p out rem cs) = true := by
  intro cs
  induction cs with
  | nil =>
    intro w p out rem _ _
    rw [encodePageLoop]
    rfl
  | cons c cs ih =>
    intro w p out rem hall hlen
    rw [List.length_cons] at hlen
    rw [encodePageLoop]
    rw [if_neg (by omega)]
    obtain ⟨i, hi⟩ := Option.isSome_iff_exists.mp (hall c (List.mem_cons_self _ _))
    rw [hi]
    exact ih w p _ (rem - 1) (fun d hd => hall d (List.mem_cons_of_mem _ hd)) (by omega)

/-- The ordinary encode loop returns `TooLong` when every character is on the
page but there are more characters than slots. -/
theorem encodePageLoop_toolong :
    ∀ (cs : List Char) (w p out rem : Nat),
      (∀ c ∈ cs, (binary_search (page p) c).isSome = true) → rem < cs.length →
      encodePageLoop w p out rem cs = .error .TooLong := by
  intro cs
  induction cs with
  | nil =>
    intro w p out rem _ hlen
    simp at hlen
  | cons c cs ih =>
    intro w p out rem hall hlen
    rw [List.length_cons] at hlen
    rw [encodePageLoop]
    by_cases hrem : rem = 0
    · rw [if_pos hrem]
    · rw [if_neg hrem]
      obtain ⟨i, hi⟩ := Option.isSome_iff_exists.mp (hall c (List.mem_cons_self _ _))
      rw [hi]
      exact ih w p _ (rem - 1) (fun d hd => hall d (List.mem_cons_of_mem _ hd)) (by omega)

/-- The delta encode loop succeeds when every character is in the CJK block
and there is room. -/
theorem encodeChineseLoop_ok :
    ∀ (cs : List Char) (w out rembits : Nat),
      (∀ c ∈ cs, (chinese_15bit_delta c).isSome = true) → 15 * cs.length ≤ rembits →
      isOkE (encodeChineseLoop w out rembits cs) = true := by
  intro cs
  induction cs with
  | nil =>
    intro w out rembits _ _
    rw [encodeChineseLoop]
    rfl
  | cons c cs ih =>
    intro w out rembits hall hlen
    rw [List.length_cons] at hlen
    rw [encodeChineseLoop]
    rw [if_neg (by omega)]
    obtain ⟨delta, hd⟩ := Option.isSome_iff_exists.mp (hall c (List.mem_cons_self _ _))
    rw [hd]
    exact ih w _ (rembits - 15) (fun d hd2 => hall d (List.mem_cons_of_mem _ hd2)) (by omega)

/-- The delta encode loop returns `TooLong` when every character is in the CJK
block but the units overrun the coding region. -/
theorem encodeChineseLoop_toolong :
    ∀ (cs : List Char) (w out rembits : Nat),
      (∀ c ∈ cs, (chinese_15bit_delta c).isSome = true) → rembits < 15 * cs.length →
      encodeChineseLoop w out rembits cs = .error .TooLong := by
  intro cs
  induction cs with
  | nil =>
    intro w out rembits _ hlen
    simp at hlen
  | cons c cs ih =>
    intro w out rembits hall hlen
    rw [List.length_cons] at hlen
    rw [encodeChineseLoop]
    by_cases hrem : rembits < 15
    · rw [if_pos hrem]
    · rw [if_neg hrem]
      obtain ⟨delta, hd⟩ := Option.isSome_iff_exists.mp (hall c (List.mem_cons_self _ _))
      rw [hd]
      exact ih w _ (rembits - 15) (fun d hd2 => hall d (List.mem_cons_of_mem _ hd2)) (by omega)

/-! ## Characterising a successful `encode` -/

/-- `encode` on the empty string. -/
theorem encode_nil (w : Nat) : encode w [] = .ok 0 := rfl

/-- `encode` on a nonempty string, unfolded one step. -/
theorem encode_cons (w : Nat) (x : Char) (cs : List Char) :
    encode w (x :: cs) =
      if 0 < NCHARBITS w ∧ (chinese_15bit_delta x).isSome then
        encodeChineseLoop w
          (truncCast w (if NTAGBITS w = 2 then CHINESE_2BIT_TAG else CHINESE_4BIT_TAG))
          (NCHARBITS w) (x :: cs)
      else
        match pageOf x with
        | none => .error (.NoCodePageFor x)
        | some p =>
          if NTAGBITS w = 2 ∧ p % 4 ≠ 0 then .error (.PageUnavailable p)
          else encodePageLoop w p (truncCast w (if NTAGBITS w = 2 then p / 4 else p))
            (NCHARS w) (x :: cs) := rfl

/-- The stored tag always fits in the tag bits. -/
theorem tag_lt {w blk : Nat} (hw2 : NTAGBITS w = 2 ∨ NTAGBITS w = 4) (hblk : blk < 16)
    (hp : NTAGBITS w = 2 → blk % 4 = 0) :
    (if NTAGBITS w = 2 then blk / 4 else blk) < 2 ^ NTAGBITS w := by
  rcases hw2 with h2 | h4
  · rw [if_pos h2, h2]
    omega
  · by_cases h2 : NTAGBITS w = 2
    · rw [if_pos h2, h2]
      omega
    · rw [if_neg h2, h4]
      omega

/-- Full characterisation of a successful encode of a nonempty string: a block
index (a page, or 12 for the CJK delta block), the stored tag, a digit width
(6 or 15) and the digit string, with the value equal to
`tag * 2^NCHARBITS + packDigits`. -/
theorem encode_ok_inv {w : Nat} (hw : w ∈ Widths) {x : Char} {cs : List Char} {v : Nat}
    (h : encode w (x :: cs) = .ok v) :
    ∃ blk tagv d digits,
      blockOf x = some blk ∧ blk < 16 ∧ (NTAGBITS w = 2 → blk % 4 = 0) ∧
      tagv = (if NTAGBITS w = 2 then blk / 4 else blk) ∧
      digits.length = cs.length + 1 ∧
      (∀ u ∈ digits, u < 2 ^ d) ∧ d * digits.length ≤ NCHARBITS w ∧
      ((blk = 12 ∧ d = 15 ∧ deltasPlus1 (x :: cs) = some digits ∧ (∀ u ∈ digits, 1 ≤ u)) ∨
       (blk ≠ 12 ∧ d = 6 ∧ pageOf x = some blk ∧ pageCodes blk (x :: cs) = some digits)) ∧
      v = tagv * 2 ^ NCHARBITS w + packDigits d (NCHARBITS w) digits := by
  obtain ⟨hw2, hw8, hwsum, hwcb, hwpos, hwlt⟩ := width_facts hw
  rw [encode_cons] at h
  by_cases hcjk : (chinese_15bit_delta x).isSome = true
  · rw [if_pos ⟨hwpos, hcjk⟩] at h
    set tag := if NTAGBITS w = 2 then CHINESE_2BIT_TAG else CHINESE_4BIT_TAG with htag
    have htag16 : tag ≤ 12 := by
      rw [htag]
      by_cases h2 : NTAGBITS w = 2
      · rw [if_pos h2]
        decide
      · rw [if_neg h2]
        decide
    have htagcast : truncCast w tag = tag := by
      apply truncCast_exact
      have : (16 : Nat) ≤ 2 ^ w := by
        calc (16 : Nat) = 2 ^ 4 := by norm_num
          _ ≤ 2 ^ w := Nat.pow_le_pow_right (by norm_num) (by omega)
      omega
    rw [htagcast] at h
    have htaglt : tag < 2 ^ (w - NCHARBITS w) := by
      have hnt : w - NCHARBITS w = NTAGBITS w := by omega
      rw [hnt, htag]
      rcases hw2 with h2 | h4
      · rw [if_pos h2, h2]
        decide
      · have h2 : NTAGBITS w ≠ 2 := by omega
        rw [if_neg h2, h4]
        decide
    obtain ⟨us, hus, hlen, hub, hv⟩ :=
      encodeChineseLoop_spec (x :: cs) w tag (NCHARBITS w) v htaglt hwlt h
    have hlen2 : us.length = cs.length + 1 := by
      have := mapOpt_length _ _ _ hus
      simpa using this
    refine ⟨12, tag, 15, us, ?_, by omega, by omega, ?_, hlen2, ?_, by omega, ?_, ?_⟩
    · unfold blockOf
      rw [if_pos hcjk]
    · rw [htag]
      by_cases h2 : NTAGBITS w = 2 <;>
        simp [h2, CHINESE_2BIT_TAG, CHINESE_4BIT_TAG]
    · intro u hu
      have h15 : (2 : Nat) ^ 15 = 32768 := by norm_num
      rw [h15]
      exact (hub u hu).2
    · exact Or.inl ⟨rfl, rfl, hus, fun u hu => (hub u hu).1⟩
    · exact hv
  · rw [if_neg (by simp [hcjk])] at h
    cases hpage : pageOf x with
    | none =>
      rw [hpage] at h
      exact absurd h (by simp)
    | some p =>
      rw [hpage] at h
      replace h : (if NTAGBITS w = 2 ∧ p % 4 ≠ 0 then
          Except.error (EncodeError.PageUnavailable p)
        else encodePageLoop w p (truncCast w (if NTAGBITS w = 2 then p / 4 else p))
          (NCHARS w) (x :: cs)) = Except.ok v := h
      have hp16 : p < 16 := (pageOf_spec hpage).1
      by_cases hprim : NTAGBITS w = 2 ∧ p % 4 ≠ 0
      · rw [if_pos hprim] at h
        exact absurd h (by simp)
      · rw [if_neg hprim] at h
        have hprim2 : NTAGBITS w = 2 → p % 4 = 0 := by
          intro h2
          by_contra hne
          exact hprim ⟨h2, hne⟩
        set tag := if NTAGBITS w = 2 then p / 4 else p with htag
        have htag16 : tag < 16 := by
          rw [htag]
          by_cases h2 : NTAGBITS w = 2
          · rw [if_pos h2]
            omega
          · rw [if_neg h2]
            exact hp16
        have htagcast : truncCast w tag = tag := by
          apply truncCast_exact
          have : (16 : Nat) ≤ 2 ^ w := by
            calc (16 : Nat) = 2 ^ 4 := by norm_num
              _ ≤ 2 ^ w := Nat.pow_le_pow_right (by norm_num) (by omega)
          omega
        rw [htagcast] at h
        have htaglt : tag < 2 ^ (w - 6 * NCHARS w) := by
          have hnt : w - 6 * NCHARS w = NTAGBITS w := by omega
          rw [hnt]
          exact tag_lt hw2 hp16 hprim2
        obtain ⟨ds, hds, hlen, hd64, hv⟩ :=
          encodePageLoop_spec (x :: cs) w p tag (NCHARS w) v hw8 htaglt (by omega) h
        have hlen2 : ds.length = cs.length + 1 := by
          have := mapOpt_length _ _ _ hds
          simpa using this
        have hpne12 : p ≠ 12 := by
          rcases pageOf_selectable hpage with rfl | rfl | rfl | rfl | rfl | rfl | rfl | rfl <;>
            omega
        refine ⟨p, tag, 6, ds, ?_, hp16, hprim2, htag, hlen2, ?_, by omega, ?_, ?_⟩
        · unfold blockOf
          rw [if_neg (by simp [hcjk]), hpage]
        · intro u hu
          have h6 : (2 : Nat) ^ 6 = 64 := by norm_num
          rw [h6]
          exact hd64 u hu
        · refine Or.inr ⟨hpne12, rfl, ?_, hds⟩
          first
          | exact hpage
          | rfl
        · rw [hv, hwcb]

/-! ## Monotonicity and positivity facts feeding the order claims -/

/-- Every page slice with a real index is sorted. -/
theorem page_sorted {p : Nat} (hp : p < 16) : sortedLeB (page p) = true := by
  apply pages_sorted
  unfold page
  exact getD_mem (by rw [PAGES_length]; exact hp) _

/-- Codes of a NUL-free string on a selectable page are all nonzero. -/
theorem pageCodes_pos {x : Char} {blk : Nat} {s : List Char} {ds : List Nat}
    (hpage : pageOf x = some blk) (hds : pageCodes blk s = some ds)
    (hnul : '\x00' ∉ s) : ∀ u ∈ ds, 1 ≤ u := by
  intro u hu
  obtain ⟨c, hc, hbc⟩ := mapOpt_mem _ s ds hds u hu
  have hcnul : c ≠ '\x00' := fun heq => hnul (heq ▸ hc)
  have := code_pos (pageOf_selectable hpage) hbc hcnul
  omega

/-- A successful encode of a nonempty NUL-free string is positive. -/
theorem encode_pos {w : Nat} (hw : w ∈ Widths) {x : Char} {cs : List Char} {v : Nat}
    (h : encode w (x :: cs) = .ok v) (hnul : '\x00' ∉ (x :: cs)) : 0 < v := by
  obtain ⟨blk, tagv, d, digits, hblock, hblk16, hprim, htagv, hlen, hbound, hdlen, hmode, hv⟩ :=
    encode_ok_inv hw h
  cases digits with
  | nil => simp at hlen
  | cons u us =>
    have hu1 : 1 ≤ u := by
      rcases hmode with ⟨_, _, hus, hpos⟩ | ⟨_, _, hpage, hds⟩
      · exact hpos u (List.mem_cons_self _ _)
      · exact pageCodes_pos hpage hds hnul u (List.mem_cons_self _ _)
    have hdlen2 : d * (us.length + 1) ≤ NCHARBITS w := by simpa using hdlen
    have := packDigits_pos hu1 hdlen2
    omega

/-- The stored tag is strictly monotone in the block index, over the blocks an
encode can actually succeed with. -/
theorem tag_mono {w blka blkb : Nat} (hpa : NTAGBITS w = 2 → blka % 4 = 0)
    (hpb : NTAGBITS w = 2 → blkb % 4 = 0) (hlt : blka < blkb) :
    (if NTAGBITS w = 2 then blka / 4 else blka) <
      (if NTAGBITS w = 2 then blkb / 4 else blkb) := by
  by_cases h2 : NTAGBITS w = 2
  · rw [if_pos h2, if_pos h2]
    have h1 := hpa h2
    have h3 := hpb h2
    omega
  · rw [if_neg h2, if_neg h2]
    exact hlt

/-- The `delta + 1` unit map is strictly monotone on the CJK block. -/
theorem delta_map_mono :
    ∀ (c : Char) (i : Nat) (c' : Char) (i' : Nat),
      (chinese_15bit_delta c).map (· + 1) = some i →
      (chinese_15bit_delta c').map (· + 1) = some i' →
      c.toNat < c'.toNat → i < i' := by
  intro c i c' i' h h' hlt
  cases hd : chinese_15bit_delta c with
  | none =>
    rw [hd] at h
    simp at h
  | some delta =>
    cases hd' : chinese_15bit_delta c' with
    | none =>
      rw [hd'] at h'
      simp at h'
    | some delta' =>
      rw [hd] at h
      rw [hd'] at h'
      simp only [Option.map_some', Option.some_inj] at h h'
      have e1 := (chinese_delta_bound hd).2
      have e2 := (chinese_delta_bound hd').2
      omega

/-- The `delta + 1` unit map is injective. -/
theorem delta_map_inj :
    ∀ (c c' : Char) (i : Nat),
      (chinese_15bit_delta c).map (· + 1) = some i →
      (chinese_15bit_delta c').map (· + 1) = some i → c = c' := by
  intro c c' i h h'
  cases hd : chinese_15bit_delta c with
  | none =>
    rw [hd] at h
    simp at h
  | some delta =>
    cases hd' : chinese_15bit_delta c' with
    | none =>
      rw [hd'] at h'
      simp at h'
    | some delta' =>
      rw [hd] at h
      rw [hd'] at h'
      simp only [Option.map_some', Option.some_inj] at h h'
      have e1 := (chinese_delta_bound hd).2
      have e2 := (chinese_delta_bound hd').2
      apply char_toNat_inj
      omega

/-- Page lookup, as a character-to-code map, is injective. -/
theorem page_map_inj (blk : Nat) :
    ∀ (c c' : Char) (i : Nat),
      binary_search (page blk) c = some i →
      binary_search (page blk) c' = some i → c = c' :=
  fun c c' i h h' => binary_search_inj h h'

/-- Cancelling a packed value into its tag part and coding part. -/
theorem tag_pack_cancel {K ta tb Pa Pb : Nat} (hPa : Pa < K) (hPb : Pb < K)
    (h : ta * K + Pa = tb * K + Pb) : ta = tb ∧ Pa = Pb := by
  have hta : ta = tb := by
    rcases Nat.lt_trichotomy ta tb with hlt | heq | hgt
    · exfalso
      have h1 : (ta + 1) * K ≤ tb * K := Nat.mul_le_mul_right _ (by omega)
      have h2 : (ta + 1) * K = ta * K + K := by ring
      omega
    · exact heq
    · exfalso
      have h1 : (tb + 1) * K ≤ ta * K := Nat.mul_le_mul_right _ (by omega)
      have h2 : (tb + 1) * K = tb * K + K := by ring
      omega
  subst hta
  exact ⟨rfl, by omega⟩

/-- The stored tag determines the block, over the blocks an encode can
actually succeed with. -/
theorem tag_inj {w blka blkb : Nat} (hpa : NTAGBITS w = 2 → blka % 4 = 0)
    (hpb : NTAGBITS w = 2 → blkb % 4 = 0)
    (h : (if NTAGBITS w = 2 then blka / 4 else blka) =
      (if NTAGBITS w = 2 then blkb / 4 else blkb)) :
    blka = blkb := by
  by_cases h2 : NTAGBITS w = 2
  · rw [if_pos h2, if_pos h2] at h
    have h3 := hpa h2
    have h4 := hpb h2
    omega
  · rw [if_neg h2, if_neg h2] at h
    exact h

/-! ## Claim C3 — cross-page order preservation -/

/-- Claim C3: for strings whose first characters select different blocks (page
index order, the CJK delta block counting as block 12), at any width where
both encodings succeed, the packed values are ordered like the blocks. -/
theorem c3_cross_page_order {w : Nat} (hw : w ∈ Widths) (x y : Char)
    (as bs : List Char) (va vb pa pb : Nat)
    (hpa : blockOf x = some pa) (hpb : blockOf y = some pb) (hlt : pa < pb)
    (ha : encode w (x :: as) = .ok va) (hb : encode w (y :: bs) = .ok vb) : va < vb := by
  obtain ⟨blka, ta, da, dsa, hba, h16a, hprima, htva, hlena, hbnda, hdlena, hmodea, hva⟩ :=
    encode_ok_inv hw ha
  obtain ⟨blkb, tb, db, dsb, hbb, h16b, hprimb, htvb, hlenb, hbndb, hdlenb, hmodeb, hvb⟩ :=
    encode_ok_inv hw hb
  have hea : blka = pa := Option.some_inj.mp (hba.symm.trans hpa)
  have heb : blkb = pb := Option.some_inj.mp (hbb.symm.trans hpb)
  subst hea
  subst heb
  have hPa : packDigits da (NCHARBITS w) dsa < 2 ^ NCHARBITS w :=
    packDigits_lt dsa da _ hbnda hdlena
  have htlt : ta < tb := by
    rw [htva, htvb]
    exact tag_mono hprima hprimb hlt
  have h1 : (ta + 1) * 2 ^ NCHARBITS w = ta * 2 ^ NCHARBITS w + 2 ^ NCHARBITS w := by ring
  have h2 : (ta + 1) * 2 ^ NCHARBITS w ≤ tb * 2 ^ NCHARBITS w :=
    Nat.mul_le_mul_right _ (by omega)
  have h3 : tb * 2 ^ NCHARBITS w ≤ vb := by
    rw [hvb]
    exact Nat.le_add_right _ _
  rw [hva]
  omega

/-- Witness for C3 at width 64: `"a"` (Latin, block 0) sorts below `"Α"`
(Greek, block 1). -/
theorem c3_cross_page_order_witness :
    encode 64 ['a'] = .ok 684547143360315392 ∧
      encode 64 ['Α'] = .ok 1297036692682702848 ∧
      (684547143360315392 : Nat) < 1297036692682702848 :=
  ⟨by rfl, by rfl,
    @c3_cross_page_order 64 (by decide) 'a' 'Α' [] [] 684547143360315392
      1297036692682702848 0 1 (by decide) (by decide) (by decide) (by rfl) (by rfl)⟩

/-! ## Claim C2 — intra-page order preservation -/

/-- Counterexample to C2 as stated: `"A"` strictly precedes its
prefix-extension `"A\x00"` in code-point order, both are drawn from the Latin
page and both encode at width 16, yet the packed values are equal, not
ordered. -/
theorem c2_counterexample :
    List.Lex (fun x y : Char => x.toNat < y.toNat) ['A'] ['A', '\x00'] ∧
      encode 16 ['A'] = .ok 704 ∧ encode 16 ['A', '\x00'] = .ok 704 ∧
      ¬((704 : Nat) < 704) :=
  ⟨List.Lex.nil.cons, by rfl, by rfl, by omega⟩

/-- Claim C2, amended: order preservation within one block holds for strings
that do not contain `U+0000`: if `a < b` in code-point lexicographic order
(including the strict-prefix case), the first characters (when present)
select the same block, and both encode at width `w`, then the packed values
are strictly ordered. -/
theorem c2_order_intra_page {w : Nat} (hw : w ∈ Widths) (a b : List Char) (va vb : Nat)
    (hna : '\x00' ∉ a) (hnb : '\x00' ∉ b)
    (hsame : ∀ x y, a.head? = some x → b.head? = some y → blockOf x = blockOf y)
    (hlex : List.Lex (fun x y : Char => x.toNat < y.toNat) a b)
    (ha : encode w a = .ok va) (hb : encode w b = .ok vb) : va < vb := by
  cases a with
  | nil =>
    have hva : va = 0 := by
      rw [encode_nil] at ha
      injection ha with h1
      omega
    cases b with
    | nil => cases hlex
    | cons y bs =>
      have := encode_pos hw hb hnb
      omega
  | cons x as =>
    cases b with
    | nil => cases hlex
    | cons y bs =>
      obtain ⟨blka, ta, da, dsa, hba, h16a, hprima, htva, hlena, hbnda, hdlena, hmodea, hva⟩ :=
        encode_ok_inv hw ha
      obtain ⟨blkb, tb, db, dsb, hbb, h16b, hprimb, htvb, hlenb, hbndb, hdlenb, hmodeb, hvb⟩ :=
        encode_ok_inv hw hb
      have hblk : blka = blkb := by
        have h := hsame x y rfl rfl
        rw [hba, hbb] at h
        exact Option.some_inj.mp h
      subst hblk
      have hteq : ta = tb := by rw [htva, htvb]
      rcases hmodea with ⟨h12a, hda, husa, hposa⟩ | ⟨hne12a, hda, hpga, hdsa⟩
      · rcases hmodeb with ⟨h12b, hdb, husb, hposb⟩ | ⟨hne12b, hdb, hpgb, hdsb⟩
        · subst hda
          subst hdb
          unfold deltasPlus1 at husa husb
          have hlexd : List.Lex (· < ·) dsa dsb :=
            mapOpt_lex delta_map_mono hlex dsa dsb husa husb
          have hPab := packDigits_lt_of_lex hlexd (NCHARBITS w) 15 hbnda hposb hbndb
            hdlena hdlenb
          rw [hva, hvb, hteq]
          exact Nat.add_lt_add_left hPab _
        · exact absurd h12a hne12b
      · rcases hmodeb with ⟨h12b, hdb, husb, hposb⟩ | ⟨hne12b, hdb, hpgb, hdsb⟩
        · exact absurd h12b hne12a
        · subst hda
          subst hdb
          unfold pageCodes at hdsa hdsb
          have hlexd : List.Lex (· < ·) dsa dsb :=
            mapOpt_lex (fun c i c' i' h h' hcc =>
              binary_search_mono (page_sorted h16a) h h' hcc) hlex dsa dsb hdsa hdsb
          have hposb2 : ∀ u ∈ dsb, 1 ≤ u :=
            pageCodes_pos hpgb hdsb hnb
          have hPab := packDigits_lt_of_lex hlexd (NCHARBITS w) 6 hbnda hposb2 hbndb
            hdlena hdlenb
          rw [hva, hvb, hteq]
          exact Nat.add_lt_add_left hPab _

/-- Witness for C2 (amended) at width 64: `"a" < "b"` on the Latin page. -/
theorem c2_order_intra_page_witness :
    encode 64 ['a'] = .ok 684547143360315392 ∧
      encode 64 ['b'] = .ok 702561541869797376 ∧
      (684547143360315392 : Nat) < 702561541869797376 :=
  ⟨by rfl, by rfl,
    @c2_order_intra_page 64 (by decide) ['a'] ['b'] 684547143360315392 702561541869797376
      (by decide) (by decide)
      (fun x y hx hy => by
        simp only [List.head?_cons, Option.some_inj] at hx hy
        subst hx
        subst hy
        decide)
      (List.Lex.rel (by decide)) (by rfl) (by rfl)⟩

/-! ## Claim C4 — injectivity of the encoding -/

/-- Counterexample to C4 as stated: the distinct strings `"A"` and `"A\x00"`
both encode at width 32 and collide. -/
theorem c4_counterexample :
    (['A'] : List Char) ≠ ['A', '\x00'] ∧
      encode 32 ['A'] = .ok 184549376 ∧ encode 32 ['A', '\x00'] = .ok 184549376 :=
  ⟨by decide, by rfl, by rfl⟩

/-- Claim C4, amended: the encoding is injective on strings that do not
contain `U+0000`: two such distinct strings that both encode at a width `w`
receive different packed values. -/
theorem c4_injective {w : Nat} (hw : w ∈ Widths) (a b : List Char) (va vb : Nat)
    (hne : a ≠ b) (hna : '\x00' ∉ a) (hnb : '\x00' ∉ b)
    (ha : encode w a = .ok va) (hb : encode w b = .ok vb) : va ≠ vb := by
  intro heq
  apply hne
  cases a with
  | nil =>
    cases b with
    | nil => rfl
    | cons y bs =>
      exfalso
      have hva : va = 0 := by
        rw [encode_nil] at ha
        injection ha with h1
        omega
      have := encode_pos hw hb hnb
      omega
  | cons x as =>
    cases b with
    | nil =>
      exfalso
      have hvb : vb = 0 := by
        rw [encode_nil] at hb
        injection hb with h1
        omega
      have := encode_pos hw ha hna
      omega
    | cons y bs =>
      obtain ⟨blka, ta, da, dsa, hba, h16a, hprima, htva, hlena, hbnda, hdlena, hmodea, hva⟩ :=
        encode_ok_inv hw ha
      obtain ⟨blkb, tb, db, dsb, hbb, h16b, hprimb, htvb, hlenb, hbndb, hdlenb, hmodeb, hvb⟩ :=
        encode_ok_inv hw hb
      have hPa : packDigits da (NCHARBITS w) dsa < 2 ^ NCHARBITS w :=
        packDigits_lt dsa da _ hbnda hdlena
      have hPb : packDigits db (NCHARBITS w) dsb < 2 ^ NCHARBITS w :=
        packDigits_lt dsb db _ hbndb hdlenb
      rw [hva, hvb] at heq
      obtain ⟨hteq, hpack⟩ := tag_pack_cancel hPa hPb heq
      have hblk : blka = blkb := by
        apply tag_inj hprima hprimb
        rw [← htva, ← htvb]
        exact hteq
      subst hblk
      rcases hmodea with ⟨h12a, hda, husa, hposa⟩ | ⟨hne12a, hda, hpga, hdsa⟩
      · rcases hmodeb with ⟨h12b, hdb, husb, hposb⟩ | ⟨hne12b, hdb, hpgb, hdsb⟩
        · subst hda
          subst hdb
          have hdig : dsa = dsb :=
            packDigits_inj dsa dsb (NCHARBITS w) 15 hposa hbnda hposb hbndb
              hdlena hdlenb hpack
          subst hdig
          unfold deltasPlus1 at husa husb
          exact mapOpt_inj delta_map_inj _ _ dsa husa husb
        · exact absurd h12a hne12b
      · rcases hmodeb with ⟨h12b, hdb, husb, hposb⟩ | ⟨hne12b, hdb, hpgb, hdsb⟩
        · exact absurd h12b hne12a
        · subst hda
          subst hdb
          have hposa2 : ∀ u ∈ dsa, 1 ≤ u := pageCodes_pos hpga hdsa hna
          have hposb2 : ∀ u ∈ dsb, 1 ≤ u := pageCodes_pos hpgb hdsb hnb
          have hdig : dsa = dsb :=
            packDigits_inj dsa dsb (NCHARBITS w) 6 hposa2 hbnda hposb2 hbndb
              hdlena hdlenb hpack
          subst hdig
          unfold pageCodes at hdsa hdsb
          exact mapOpt_inj (page_map_inj blka) _ _ dsa hdsa hdsb

/-- Witness for C4 (amended) at width 32: `"a"` and `"b"` encode to
different values. -/
theorem c4_injective_witness :
    encode 32 ['a'] = .ok 637534208 ∧ encode 32 ['b'] = .ok 654311424 ∧
      (637534208 : Nat) ≠ 654311424 :=
  ⟨by rfl, by rfl,
    @c4_injective 32 (by decide) ['a'] ['b'] 637534208 654311424
      (by decide) (by decide) (by decide) (by rfl) (by rfl)⟩

/-! ## Claim C5 — delta-mode entry condition at the narrow widths -/

/-- Counterexample to C5 as stated: at width 8 (where `special_slots = 0`) a
CJK-initial input still enters delta mode — because the code's guard is
`NCHARBITS > 0`, which holds at every width — and then fails with `TooLong`,
not with `NoCodePageFor`. -/
theorem c5_counterexample :
    chinese_15bit_delta '一' = some 0 ∧ specialSlots 8 = 0 ∧
      encode 8 ['一'] = .error .TooLong ∧
      encode 8 ['一'] ≠ .error (.NoCodePageFor '一') := by
  refine ⟨by rfl, by rfl, by rfl, ?_⟩
  intro h
  rw [show encode 8 ['一'] = Except.error EncodeError.TooLong from rfl] at h
  injection h with h2
  exact EncodeError.noConfusion h2

/-- Claim C5, amended: the delta-mode guard `NCHARBITS > 0` holds at every
width, so a non-empty input whose first character lies in U+4E00..U+9FFF is
always routed to delta mode; at the widths with `special_slots = 0` (8 and
16 bits) the first 15-bit unit already does not fit and the encoder fails
with `TooLong` (never with `NoCodePageFor`). -/
theorem c5_delta_narrow_toolong :
    ∀ w, w = 8 ∨ w = 16 → ∀ (x : Char) (cs : List Char),
      (chinese_15bit_delta x).isSome = true →
      encode w (x :: cs) = .error .TooLong := by
  intro w hw x cs hx
  rw [encode_cons]
  have hpos : 0 < NCHARBITS w := by rcases hw with rfl | rfl <;> decide
  rw [if_pos ⟨hpos, hx⟩]
  rw [encodeChineseLoop]
  rw [if_pos (by rcases hw with rfl | rfl <;> decide)]

/-- Witness for C5 (amended): `encode("一", u8)` is `TooLong`. -/
theorem c5_delta_narrow_toolong_witness :
    encode 8 ['一'] = .error .TooLong :=
  c5_delta_narrow_toolong 8 (Or.inl rfl) '一' [] (by rfl)

/-! ## Claim C7 — the sentinel as an input character -/

/-- Counterexample to C7 as stated: the sentinel U+FFFF sits in the Hebrew
page's unassigned slots, so the one-character sentinel string encodes
successfully at width 64 (and 16). -/
theorem c7_counterexample :
    sentinelChar.toNat = 0xFFFF ∧
      encode 64 [sentinelChar] = .ok 4539628424389459968 ∧
      encode 16 [sentinelChar] = .ok 16128 :=
  ⟨by rfl, by rfl, by rfl⟩

/-- Claim C7, amended: the sentinel is *not* unencodable.  Its binary search
succeeds on the Hebrew page (index 3), so at the 4-tag-bit widths (16 and
64) a sentinel string can encode; at the 2-tag-bit widths (8, 32, 128) a
sentinel-initial string fails, but with `PageUnavailable(3)` — the Hebrew
page is non-primary — not because the sentinel has no code. -/
theorem c7_sentinel_encodable :
    (∀ w, w = 8 ∨ w = 32 ∨ w = 128 → ∀ cs : List Char,
      encode w (sentinelChar :: cs) = .error (.PageUnavailable 3)) ∧
      isOkE (encode 16 [sentinelChar]) = true ∧
      isOkE (encode 64 [sentinelChar]) = true := by
  refine ⟨?_, by rfl, by rfl⟩
  intro w hw cs
  rw [encode_cons]
  have hcjk : (chinese_15bit_delta sentinelChar).isSome = false := by decide
  rw [if_neg (by simp [hcjk])]
  have hpage : pageOf sentinelChar = some 3 := by decide
  rw [hpage]
  show (if NTAGBITS w = 2 ∧ 3 % 4 ≠ 0 then Except.error (EncodeError.PageUnavailable 3)
    else encodePageLoop w 3 (truncCast w (if NTAGBITS w = 2 then 3 / 4 else 3)) (NCHARS w)
      (sentinelChar :: cs)) = Except.error (EncodeError.PageUnavailable 3)
  have h2 : NTAGBITS w = 2 := by rcases hw with rfl | rfl | rfl <;> decide
  rw [if_pos ⟨h2, by decide⟩]

/-- Witness for C7 (amended): at width 8 the sentinel string fails with
`PageUnavailable(3)`. -/
theorem c7_sentinel_encodable_witness :
    encode 8 [sentinelChar] = .error (.PageUnavailable 3) :=
  c7_sentinel_encodable.1 8 (Or.inl rfl) []

/-! ## Claim C8 — capacity boundaries -/

/-- Claim C8: at every width, a string of exactly `char_slots(N)` characters
all carrying codes on the first character's page (primary when only 2 tag
bits exist) encodes successfully, and appending one more such character
fails with `TooLong`; analogously, a string of exactly `special_slots(N)`
CJK characters encodes successfully and one more CJK character fails with
`TooLong` (at the widths with `special_slots = 0` the empty string encodes
and any single CJK character is already `TooLong`). -/
theorem c8_capacity_boundary {w : Nat} (hw : w ∈ Widths) :
    (∀ (p : Nat) (x : Char) (cs : List Char),
      pageOf x = some p → (NTAGBITS w = 2 → p % 4 = 0) →
      (∀ c ∈ x :: cs, (binary_search (page p) c).isSome = true) →
      ((x :: cs).length = NCHARS w → isOkE (encode w (x :: cs)) = true) ∧
      (∀ y : Char, (binary_search (page p) y).isSome = true →
        (x :: cs).length = NCHARS w →
        encode w (x :: cs ++ [y]) = .error .TooLong)) ∧
    (∀ cs : List Char, (∀ c ∈ cs, (chinese_15bit_delta c).isSome = true) →
      (cs.length = specialSlots w → isOkE (encode w cs) = true) ∧
      (∀ y : Char, (chinese_15bit_delta y).isSome = true →
        cs.length = specialSlots w →
        encode w (cs ++ [y]) = .error .TooLong)) := by
  obtain ⟨hw2, hw8, hwsum, hwcb, hwpos, hwlt⟩ := width_facts hw
  constructor
  · intro p x cs hpage hprim hall
    have hcjk : (chinese_15bit_delta x).isSome = false := by
      rw [pageOf_not_cjk hpage]
      rfl
    have hentry : ∀ s : List Char,
        encode w (x :: s) = encodePageLoop w p
          (truncCast w (if NTAGBITS w = 2 then p / 4 else p)) (NCHARS w) (x :: s) := by
      intro s
      rw [encode_cons]
      rw [if_neg (by simp [hcjk]), hpage]
      show (if NTAGBITS w = 2 ∧ p % 4 ≠ 0 then Except.error (EncodeError.PageUnavailable p)
        else encodePageLoop w p (truncCast w (if NTAGBITS w = 2 then p / 4 else p)) (NCHARS w)
          (x :: s)) = _
      rw [if_neg (by intro hand; exact hand.2 (hprim hand.1))]
    constructor
    · intro hlen
      rw [hentry cs]
      exact encodePageLoop_ok (x :: cs) w p _ (NCHARS w) hall (by omega)
    · intro y hy hlen
      rw [List.cons_append, hentry (cs ++ [y])]
      apply encodePageLoop_toolong (x :: (cs ++ [y])) w p _ (NCHARS w)
      · intro c hc
        rcases List.mem_cons.mp hc with rfl | hc2
        · exact hall c (List.mem_cons_self _ _)
        · rcases List.mem_append.mp hc2 with hc3 | hc4
          · exact hall c (List.mem_cons_of_mem _ hc3)
          · rw [List.mem_singleton.mp hc4]
            exact hy
      · simp only [List.length_cons, List.length_append, List.length_singleton]
        simp only [List.length_cons] at hlen
        omega
  · intro cs hall
    constructor
    · intro hlen
      cases cs with
      | nil => rfl
      | cons c cs' =>
        rw [encode_cons]
        rw [if_pos ⟨hwpos, hall c (List.mem_cons_self _ _)⟩]
        apply encodeChineseLoop_ok (c :: cs') w _ (NCHARBITS w) hall
        rw [hlen]
        unfold specialSlots
        omega
    · intro y hy hlen
      have hally : ∀ c ∈ cs ++ [y], (chinese_15bit_delta c).isSome = true := by
        intro c hc
        rcases List.mem_append.mp hc with hc2 | hc3
        · exact hall c hc2
        · rw [List.mem_singleton.mp hc3]
          exact hy
      have hlen2 : NCHARBITS w < 15 * (cs ++ [y]).length := by
        rw [List.length_append, List.length_singleton, hlen]
        unfold specialSlots
        omega
      cases hcons : cs ++ [y] with
      | nil => simp at hcons
      | cons c0 rest =>
        rw [hcons] at hally hlen2
        rw [encode_cons]
        rw [if_pos ⟨hwpos, hally c0 (List.mem_cons_self _ _)⟩]
        exact encodeChineseLoop_toolong (c0 :: rest) w _ (NCHARBITS w) hally hlen2

/-- Witness for C8 at width 8: `"1"` fills the single slot; `"12"` is
`TooLong`. -/
theorem c8_capacity_boundary_witness :
    isOkE (encode 8 ['1']) = true ∧ encode 8 ['1', '2'] = .error .TooLong := by
  have h := (@c8_capacity_boundary 8 (by decide)).1 0 '1' []
    (by decide) (by decide) (by decide)
  exact ⟨h.1 (by decide), h.2 '2' (by decide) (by decide)⟩

/-! ## Claim C10 — NUL is accepted by the encoder -/

/-- Counterexample to C10 as stated: at width 8 the claimed collapse
`encode("A\x00") = encode("A")` fails — the left side does not encode at all
(only one slot exists), so "a string containing NUL encodes successfully" is
not true at every width. -/
theorem c10_counterexample :
    encode 8 ['A'] = .ok 11 ∧ encode 8 ['A', '\x00'] = .error .TooLong :=
  ⟨by rfl, by rfl⟩

/-- Claim C10, amended: within capacity, NUL is a perfectly encodable input:
(1) any string of characters carrying codes on the first character's page —
`U+0000` included, it holds code 0 on every selectable page (2) — encodes
successfully when it fits; (3) at every width with at least two slots the
trailing NUL collapses, `encode("A\x00") = encode("A")`; and (4) decoding
stops at the first zero code, so the suffix after an interior NUL is
silently dropped: `"A\x00B"` encodes at width 32 but decodes to `"A"`. -/
theorem c10_nul_accepted :
    (∀ w, w ∈ Widths → ∀ (p : Nat) (x : Char) (cs : List Char),
      pageOf x = some p → (NTAGBITS w = 2 → p % 4 = 0) →
      (∀ c ∈ x :: cs, (binary_search (page p) c).isSome = true) →
      (x :: cs).length ≤ NCHARS w → isOkE (encode w (x :: cs)) = true) ∧
    (∀ p, (p = 0 ∨ p = 1 ∨ p = 2 ∨ p = 3 ∨ p = 4 ∨ p = 8 ∨ p = 11 ∨ p = 15) →
      binary_search (page p) '\x00' = some 0) ∧
    (∀ w, w ∈ Widths → 2 ≤ NCHARS w → encode w ['A', '\x00'] = encode w ['A']) ∧
    encode 32 ['A', '\x00', 'B'] = .ok 184598528 ∧
    decode_sixbit 32 184598528 = ['A'] := by
  refine ⟨?_, ?_, ?_, by rfl, by rfl⟩
  · intro w hw p x cs hpage hprim hall hlen
    have hcjk : (chinese_15bit_delta x).isSome = false := by
      rw [pageOf_not_cjk hpage]
      rfl
    rw [encode_cons]
    rw [if_neg (by simp [hcjk]), hpage]
    show isOkE (if NTAGBITS w = 2 ∧ p % 4 ≠ 0 then Except.error (EncodeError.PageUnavailable p)
      else encodePageLoop w p (truncCast w (if NTAGBITS w = 2 then p / 4 else p)) (NCHARS w)
        (x :: cs)) = true
    rw [if_neg (by intro hand; exact hand.2 (hprim hand.1))]
    exact encodePageLoop_ok (x :: cs) w p _ (NCHARS w) hall hlen
  · intro p hp
    rcases hp with rfl | rfl | rfl | rfl | rfl | rfl | rfl | rfl <;> decide
  · intro w hw h2
    simp only [Widths, List.mem_cons, List.not_mem_nil, or_false] at hw
    rcases hw with rfl | rfl | rfl | rfl | rfl
    · exact absurd h2 (by decide)
    · rfl
    · rfl
    · rfl
    · rfl

/-- Witness for C10 (amended): `"A\x00"` encodes successfully at width 16. -/
theorem c10_nul_accepted_witness :
    isOkE (encode 16 ['A', '\x00']) = true :=
  c10_nul_accepted.1 16 (by decide) 0 'A' ['\x00'] (by decide) (by decide) (by decide)
    (by decide)

/-! ## The decode iterator: step structure and length bounds -/

/-- The most significant byte of zero is zero. -/
theorem mostSignificantByte_zero (w : Nat) : mostSignificantByte w 0 = 0 := by
  unfold mostSignificantByte
  exact Nat.zero_div _

/-- Once the accumulator is zero the iterator stops. -/
theorem decodeStep_zero (w tag : Nat) : decodeStep w tag 0 = none := by
  unfold decodeStep
  rw [mostSignificantByte_zero]
  by_cases h : tag = CHINESE_4BIT_TAG
  · rw [if_pos h]
    rfl
  · rw [if_neg h]
    rfl

/-- The fixed factor by which one decode step shifts the accumulator:
`2^6` in 6-bit mode; in delta mode `2^15` at widths ≥ 16, but `2^7` at width
8, where the `tmp <<= 8` is masked to a no-op shift in a release build. -/
def stepMul (w tag : Nat) : Nat :=
  if tag = CHINESE_4BIT_TAG then (if w = 8 then 2 ^ 7 else 2 ^ 15) else 2 ^ 6

/-- Each productive decode step multiplies the accumulator by `stepMul`
modulo `2^w`. -/
theorem decodeStep_next {w tag tmp : Nat} (hw : w ∈ Widths) {c : Char} {tmp2 : Nat}
    (h : decodeStep w tag tmp = some (c, tmp2)) :
    tmp2 = tmp * stepMul w tag % 2 ^ w := by
  simp only [Widths, List.mem_cons, List.not_mem_nil, or_false] at hw
  unfold decodeStep at h
  unfold stepMul
  by_cases htag : tag = CHINESE_4BIT_TAG
  · rw [if_pos htag] at h
    rw [if_pos htag]
    by_cases hch : mostSignificantByte w tmp = 0
    · rw [if_pos hch] at h
      exact Option.noConfusion h
    · rw [if_neg hch] at h
      replace h : (match char_from_u32 (CHINESE_LO +
          Nat.lor (mostSignificantByte w tmp <<< 7)
            (mostSignificantByte w (shlW w tmp 8) >>> 1) - 1) with
        | some c => some (c, shlW w (shlW w tmp 8) 7)
        | none => none) = some (c, tmp2) := h
      cases hc : char_from_u32 (CHINESE_LO +
          Nat.lor (mostSignificantByte w tmp <<< 7)
            (mostSignificantByte w (shlW w tmp 8) >>> 1) - 1) with
      | none =>
        rw [hc] at h
        exact Option.noConfusion h
      | some c2 =>
        rw [hc] at h
        injection h with h2
        injection h2 with h3 h4
        rw [← h4]
        unfold shlW
        rcases hw with rfl | rfl | rfl | rfl | rfl
        · rw [if_pos rfl]
          norm_num [Nat.mod_mul_mod]
        all_goals rw [if_neg (by omega)]
        all_goals norm_num [Nat.mod_mul_mod, Nat.mul_assoc]
  · rw [if_neg htag] at h
    rw [if_neg htag]
    by_cases hch : mostSignificantByte w tmp >>> 2 = 0
    · rw [if_pos hch] at h
      exact Option.noConfusion h
    · rw [if_neg hch] at h
      injection h with h2
      injection h2 with h3 h4
      rw [← h4]
      unfold shlW
      rcases hw with rfl | rfl | rfl | rfl | rfl <;> norm_num

/-- The decode iterator emits at most `k` characters once multiplying the
accumulator by `stepMul` `k` times annihilates it mod `2^w`, regardless of
fuel. -/
theorem decodeList_length_le {w tag : Nat} (hw : w ∈ Widths) :
    ∀ (fuel k tmp : Nat), tmp < 2 ^ w → tmp * stepMul w tag ^ k % 2 ^ w = 0 →
      (decodeList w tag tmp fuel).length ≤ k := by
  intro fuel
  induction fuel with
  | zero =>
    intro k tmp _ _
    rw [decodeList]
    simp
  | succ fuel ih =>
    intro k tmp hlt hann
    rw [decodeList]
    cases hstep : decodeStep w tag tmp with
    | none => simp
    | some ct =>
      obtain ⟨c, tmp2⟩ := ct
      cases k with
      | zero =>
        exfalso
        rw [pow_zero, Nat.mul_one, Nat.mod_eq_of_lt hlt] at hann
        rw [hann, decodeStep_zero] at hstep
        exact Option.noConfusion hstep
      | succ k' =>
        simp only [List.length_cons]
        have htmp2 : tmp2 = tmp * stepMul w tag % 2 ^ w := decodeStep_next hw hstep
        have hlt2 : tmp2 < 2 ^ w := by
          rw [htmp2]
          exact Nat.mod_lt _ (Nat.two_pow_pos _)
        have hann2 : tmp2 * stepMul w tag ^ k' % 2 ^ w = 0 := by
          rw [htmp2, Nat.mod_mul_mod]
          have harr : tmp * stepMul w tag * stepMul w tag ^ k' =
              tmp * stepMul w tag ^ (k' + 1) := by
            rw [pow_succ]
            ring
          rw [harr]
          exact hann
        have := ih k' tmp2 hlt2 hann2
        omega

/-- A value multiplied past the width is annihilated mod `2^w`. -/
theorem annihilate {w a b : Nat} (v : Nat) (h : w ≤ a + b) :
    v * 2 ^ a % 2 ^ w * 2 ^ b % 2 ^ w = 0 := by
  rw [Nat.mod_mul_mod]
  have harr : v * 2 ^ a * 2 ^ b = 2 ^ w * (v * 2 ^ (a + b - w)) := by
    generalize hg : a + b - w = c0
    have hab : a + b = w + c0 := by omega
    rw [Nat.mul_assoc, ← Nat.pow_add, hab, Nat.pow_add]
    ring
  rw [harr]
  exact Nat.mul_mod_right _ _

/-- The (4-bit-normalised) tag the decoder reads off a packed value. -/
def decodeTag (w v : Nat) : Nat := (decode_sixbit_init w v).1

/-! ## Claim C9 — decode finiteness bound -/

/-- Counterexample to C9 as stated: width 8 has `special_slots = 0`, yet the
value `0xC1` carries the delta tag and decodes (in a release build, where the
oversized `tmp <<= 8` is masked) to the one-character sequence `"倁"`
(U+5001) — one character more than `special_slots` allows. -/
theorem c9_counterexample :
    decodeTag 8 0xC1 = CHINESE_4BIT_TAG ∧ specialSlots 8 = 0 ∧
      decode_sixbit 8 0xC1 = ['倁'] :=
  ⟨by rfl, by rfl, by rfl⟩

/-- Claim C9, amended: the decode sequence is finite, with at most
`char_slots(N)` characters under an ordinary tag and at most
`⌈(N − tag_bits)/15⌉` characters under the delta tag; the latter equals
`special_slots(N)` only when 15 divides the coding width, and exceeds it by
one at widths 8, 16 and 128. -/
theorem c9_decode_length_bound {w : Nat} (hw : w ∈ Widths) (v : Nat) (hv : v < 2 ^ w) :
    (decode_sixbit w v).length ≤
      (if decodeTag w v = CHINESE_4BIT_TAG then deltaCap w else NCHARS w) := by
  obtain ⟨hw2, hw8, hwsum, hwcb, hwpos, hwlt⟩ := width_facts hw
  have htmp : (decode_sixbit_init w v).2 = v * 2 ^ NTAGBITS w % 2 ^ w := by
    unfold decode_sixbit_init shlW
    rw [Nat.mod_eq_of_lt (show NTAGBITS w < w by omega)]
  unfold decode_sixbit
  rw [htmp]
  apply decodeList_length_le hw
  · exact Nat.mod_lt _ (Nat.two_pow_pos _)
  · unfold decodeTag
    by_cases htag : (decode_sixbit_init w v).1 = CHINESE_4BIT_TAG
    · rw [htag, if_pos rfl]
      unfold stepMul
      rw [if_pos rfl]
      simp only [Widths, List.mem_cons, List.not_mem_nil, or_false] at hw
      rcases hw with rfl | rfl | rfl | rfl | rfl
      · rw [if_pos rfl, ← Nat.pow_mul]
        exact annihilate v (by decide)
      all_goals rw [if_neg (by omega), ← Nat.pow_mul]
      all_goals exact annihilate v (by decide)
    · rw [if_neg htag]
      unfold stepMul
      rw [if_neg htag]
      rw [← Nat.pow_mul]
      exact annihilate v (by omega)

/-- Witness for C9 (amended) at width 8 on the counterexample value. -/
theorem c9_decode_length_bound_witness :
    (decode_sixbit 8 0xC1).length ≤
      (if decodeTag 8 0xC1 = CHINESE_4BIT_TAG then deltaCap 8 else NCHARS 8) :=
  @c9_decode_length_bound 8 (by decide) 0xC1 (by decide)

/-! ## Claim C6 — "decoding never fails" -/

/-- Claim C6 is a code bug: decoding is *not* panic-free.  At width 8 with the
delta tag (top bits `11`) and a nonzero coding region — e.g. the byte
`0xC1` — `DecodeSixbitIter::next` executes `self.tmp <<= 8` on a `u8`.
Under debug assertions this oversized shift panics (the checked model
reports the panic); a release build masks the shift and emits U+5001, which
is also not the claimed sentinel behaviour. -/
theorem c6_decode_panic_reachable :
    decode_sixbit_checked 8 0xC1 = .error () :=
  by rfl

/-! ## Claim C1 — round trip -/

/-- Claim C1 is a code bug: the round trip fails in delta mode whenever a
15-bit unit is below 128, i.e. for characters U+4E00..U+4E7E.  The decoder's
end-of-string test looks only at the top 8 bits of the 15-bit unit, so the
unit `1` written for `"一"` (U+4E00) reads back as a terminator:
`encode("一", u32)` succeeds with `0xC0008000` but decoding yields the empty
string. -/
theorem c1_roundtrip_cjk_bug :
    encode 32 ['一'] = .ok 0xC0008000 ∧ decode_sixbit 32 0xC0008000 = [] :=
  ⟨by rfl, by rfl⟩
